import Mathlib

/-!
Verification development for the subprocess CLI transport
(`src/claude_code_sdk/_internal/transport/subprocess_cli.py`).

The heart of the module is `receive_messages`: a line-oriented frame
accumulator that joins stripped stdout lines into a buffer, tracks
brace/bracket nesting and string/escape state per character, and attempts a
JSON parse whenever the cumulative counters are balanced.  We embed that
loop as the pure step function `feedLine` over `FeedState`, driven by
`runLines`; `json.loads` is embedded as the executable parser `jsonLoads`
(JSON numbers are kept as their lexeme text, which is all the framing layer
observes; `str.strip` and `str.lower` are modelled on their ASCII behavior).
The lifecycle methods `disconnect`, `send_request` and the connection guard
of `receive_messages` are embedded over an explicit transport state, with
the child's reaction to termination supplied as an oracle.
-/

namespace Sdk

/-! ## The per-character scanner of `receive_messages` (lines 218-243) -/

/-- The four mutable scanning variables of the accumulator loop:
`brace_count`, `bracket_count`, `in_string`, `escape_next`. -/
structure ScanSt where
  brace_count : Int
  bracket_count : Int
  in_string : Bool
  escape_next : Bool
deriving DecidableEq, Repr

/-- The state all counters/flags start from (and are reset to). -/
def cleanSt : ScanSt := ⟨0, 0, false, false⟩

/-- One iteration of the character loop at lines 220-243 of the source. -/
def scanChar (st : ScanSt) (c : Char) : ScanSt :=
  if st.in_string then
    if st.escape_next then { st with escape_next := false }
    else if c = '\\' then { st with escape_next := true }
    else if c = '"' then { st with in_string := false }
    else st
  else
    if c = '"' then { st with in_string := true }
    else if c = '\x7b' then { st with brace_count := st.brace_count + 1 }
    else if c = '\x7d' then { st with brace_count := st.brace_count - 1 }
    else if c = '[' then { st with bracket_count := st.bracket_count + 1 }
    else if c = ']' then { st with bracket_count := st.bracket_count - 1 }
    else st

/-- Scanning a whole line (the `while i < len(line_str)` loop). -/
def scanChars (st : ScanSt) (cs : List Char) : ScanSt :=
  cs.foldl scanChar st

/-- Scan from the initial state. -/
def scan00 (cs : List Char) : ScanSt := scanChars cleanSt cs

/-- The completion test of line 246: both counters zero and not inside a
string (the buffer-nonempty conjunct is kept at the use site). -/
def scanDone (st : ScanSt) : Prop :=
  st.brace_count = 0 ∧ st.bracket_count = 0 ∧ st.in_string = false

instance (st : ScanSt) : Decidable (scanDone st) := by
  unfold scanDone; infer_instance

/-! ## Python `str.strip()` and `"\n".join`, modelled on ASCII whitespace -/

/-- The ASCII characters Python's `str.strip()` removes. -/
def isPySpace (c : Char) : Bool :=
  c = ' ' || c = '\t' || c = '\n' || c = '\r' || c = '\x0b' || c = '\x0c'

/-- Strip leading/trailing whitespace from a character list. -/
def pyStripL (cs : List Char) : List Char :=
  ((cs.dropWhile isPySpace).reverse.dropWhile isPySpace).reverse

/-- Model of Python `line.strip()` (line 196). -/
def pyStrip (s : String) : String :=
  String.mk (pyStripL s.data)

/-- Model of Python `"\n".join(lines)`. -/
def joinNl : List String → String
  | [] => ""
  | [l] => l
  | l :: ls => l ++ "\n" ++ joinNl ls

/-- Lines 213-216: append the stripped line to the buffer, separated by a
single newline when the buffer is nonempty. -/
def joinBuf (buf line_str : String) : String :=
  if buf = "" then line_str else buf ++ "\n" ++ line_str

/-! ## A model of Python `json.loads`

A fuel-indexed recursive-descent parser over the character list.  It
follows the stdlib decoder: JSON whitespace is ` \t\n\r`; strings are
double-quoted with the eight simple escapes and `\uXXXX`, and (strict mode)
reject raw control characters; numbers follow the stdlib `NUMBER_RE`
regex and are kept as their lexeme; `NaN`/`Infinity`/`-Infinity` are
accepted as the stdlib does by default.  Trailing input other than
whitespace makes the whole parse fail, as in `json.loads`. -/

/-- A decoded JSON value.  Numbers carry their source lexeme: the transport
treats every decoded value as opaque, so no numeric semantics is needed. -/
inductive Json where
  | null
  | bool (b : Bool)
  | num (lexeme : String)
  | str (s : String)
  | arr (elems : List Json)
  | obj (members : List (String × Json))

/-- The JSON whitespace characters skipped by the stdlib decoder. -/
def isJsonWs (c : Char) : Bool :=
  c = ' ' || c = '\t' || c = '\n' || c = '\r'

/-- Skip JSON whitespace. -/
def skipWsL (cs : List Char) : List Char := cs.dropWhile isJsonWs

/-- Decimal digit test (ASCII `0`-`9`). -/
def isDig (c : Char) : Bool :=
  c = '0' || c = '1' || c = '2' || c = '3' || c = '4' ||
  c = '5' || c = '6' || c = '7' || c = '8' || c = '9'

/-- Hexadecimal digit test, for `\uXXXX` escapes. -/
def isHexDig (c : Char) : Bool :=
  isDig c || c = 'a' || c = 'b' || c = 'c' || c = 'd' || c = 'e' || c = 'f'
    || c = 'A' || c = 'B' || c = 'C' || c = 'D' || c = 'E' || c = 'F'

/-- Value of a hexadecimal digit. -/
def hexVal (c : Char) : Nat :=
  if isDig c then c.toNat - '0'.toNat
  else if 'a' ≤ c ∧ c ≤ 'f' then c.toNat - 'a'.toNat + 10
  else if 'A' ≤ c ∧ c ≤ 'F' then c.toNat - 'A'.toNat + 10
  else 0

/-- Decode one simple string escape character. -/
def escDecode (c : Char) : Char :=
  if c = 'b' then '\x08'
  else if c = 'f' then '\x0c'
  else if c = 'n' then '\n'
  else if c = 'r' then '\r'
  else if c = 't' then '\t'
  else c

/-- Parse a JSON string body after the opening quote, through the closing
quote; returns the decoded content and the remaining input.  Strict mode:
raw control characters (codepoint < 32) are rejected. -/
def pStr : List Char → Option (List Char × List Char)
  | [] => none
  | c :: cs =>
    if c = '"' then some ([], cs)
    else if c = '\\' then
      match cs with
      | [] => none
      | e :: cs2 =>
        if e = 'u' then
          match cs2 with
          | h1 :: h2 :: h3 :: h4 :: cs3 =>
            if isHexDig h1 && isHexDig h2 && isHexDig h3 && isHexDig h4 then
              match pStr cs3 with
              | some (out, rest) =>
                some (Char.ofNat ((((hexVal h1 * 16 + hexVal h2) * 16
                  + hexVal h3) * 16 + hexVal h4)) :: out, rest)
              | none => none
            else none
          | _ => none
        else if e = '"' || e = '\\' || e = '/' || e = 'b' || e = 'f'
            || e = 'n' || e = 'r' || e = 't' then
          match pStr cs2 with
          | some (out, rest) => some (escDecode e :: out, rest)
          | none => none
        else none
    else if c.toNat < 32 then none
    else
      match pStr cs with
      | some (out, rest) => some (c :: out, rest)
      | none => none

/-- Match a literal keyword, returning the rest of the input. -/
def stripLit : List Char → List Char → Option (List Char)
  | [], cs => some cs
  | _ :: _, [] => none
  | k :: ks, c :: cs => if c = k then stripLit ks cs else none

/-- Integer part of the stdlib number regex: `-? (0 | [1-9][0-9]*)` without
the sign. -/
def pIntPart : List Char → Option (List Char × List Char)
  | [] => none
  | c :: cs =>
    if c = '0' then some ([c], cs)
    else if isDig c then some (c :: cs.takeWhile isDig, cs.dropWhile isDig)
    else none

/-- Optional fraction part `(\. [0-9]+)?`; returns the matched lexeme part
(possibly empty) and the rest. -/
def pFracPart (cs : List Char) : List Char × List Char :=
  match cs with
  | c :: cs2 =>
    if c = '.' then
      if cs2.takeWhile isDig = [] then ([], cs)
      else ('.' :: cs2.takeWhile isDig, cs2.dropWhile isDig)
    else ([], cs)
  | [] => ([], cs)

/-- Exponent tail after the `e`/`E` marker: an optional sign followed by
at least one digit, or no match at all. -/
def pExpTail (c : Char) (rest : List Char) : List Char × List Char :=
  match rest with
  | s :: r2 =>
    if s = '+' || s = '-' then
      if r2.takeWhile isDig = [] then ([], c :: rest)
      else (c :: s :: r2.takeWhile isDig, r2.dropWhile isDig)
    else
      if rest.takeWhile isDig = [] then ([], c :: rest)
      else (c :: rest.takeWhile isDig, rest.dropWhile isDig)
  | [] => ([], c :: rest)

/-- Optional exponent part `([eE][-+]?[0-9]+)?`. -/
def pExpPart (cs : List Char) : List Char × List Char :=
  match cs with
  | c :: rest => if c = 'e' || c = 'E' then pExpTail c rest else ([], cs)
  | [] => ([], cs)

/-- A JSON number lexeme per the stdlib `NUMBER_RE`. -/
def pNum (cs : List Char) : Option (List Char × List Char) :=
  match cs with
  | '-' :: cs2 =>
    match pIntPart cs2 with
    | some (ip, r) =>
      let fr := pFracPart r
      let er := pExpPart fr.2
      some ('-' :: (ip ++ fr.1 ++ er.1), er.2)
    | none => none
  | _ =>
    match pIntPart cs with
    | some (ip, r) =>
      let fr := pFracPart r
      let er := pExpPart fr.2
      some (ip ++ fr.1 ++ er.1, er.2)
    | none => none

mutual

/-- Parse one JSON value starting at the first character (callers have
already skipped whitespace), following the stdlib `py_scan_once` dispatch. -/
def pValue : Nat → List Char → Option (Json × List Char)
  | 0, _ => none
  | Nat.succ f, cs =>
    match cs with
    | [] => none
    | c :: cs2 =>
      if c = '"' then
        match pStr cs2 with
        | some (out, rest) => some (Json.str (String.mk out), rest)
        | none => none
      else if c = '\x7b' then
        match skipWsL cs2 with
        | [] => none
        | r0 :: rt =>
          if r0 = '\x7d' then some (Json.obj [], rt)
          else
            match pMembers f (r0 :: rt) with
            | some (ms, rest) => some (Json.obj ms, rest)
            | none => none
      else if c = '[' then
        match skipWsL cs2 with
        | [] => none
        | r0 :: rt =>
          if r0 = ']' then some (Json.arr [], rt)
          else
            match pElems f (r0 :: rt) with
            | some (vs, rest) => some (Json.arr vs, rest)
            | none => none
      else
        match stripLit ['n', 'u', 'l', 'l'] cs with
        | some rest => some (Json.null, rest)
        | none =>
        match stripLit ['t', 'r', 'u', 'e'] cs with
        | some rest => some (Json.bool true, rest)
        | none =>
        match stripLit ['f', 'a', 'l', 's', 'e'] cs with
        | some rest => some (Json.bool false, rest)
        | none =>
        match pNum cs with
        | some (lex, rest) => some (Json.num (String.mk lex), rest)
        | none =>
        match stripLit ['N', 'a', 'N'] cs with
        | some rest => some (Json.num "NaN", rest)
        | none =>
        match stripLit ['I', 'n', 'f', 'i', 'n', 'i', 't', 'y'] cs with
        | some rest => some (Json.num "Infinity", rest)
        | none =>
        match stripLit ['-', 'I', 'n', 'f', 'i', 'n', 'i', 't', 'y'] cs with
        | some rest => some (Json.num "-Infinity", rest)
        | none => none

/-- Parse the non-empty element list of an array, consuming through the
closing `]`. -/
def pElems : Nat → List Char → Option (List Json × List Char)
  | 0, _ => none
  | Nat.succ f, cs =>
    match pValue f cs with
    | none => none
    | some (v, r1) =>
      match skipWsL r1 with
      | [] => none
      | r0 :: r2 =>
        if r0 = ']' then some ([v], r2)
        else if r0 = ',' then
          match pElems f (skipWsL r2) with
          | some (vs, r3) => some (v :: vs, r3)
          | none => none
        else none

/-- Parse the non-empty member list of an object, consuming through the
closing brace. -/
def pMembers : Nat → List Char → Option (List (String × Json) × List Char)
  | 0, _ => none
  | Nat.succ f, cs =>
    match cs with
    | [] => none
    | c0 :: cs2 =>
      if c0 = '"' then
        match pStr cs2 with
        | none => none
        | some (k, r1) =>
          match skipWsL r1 with
          | [] => none
          | q0 :: r2 =>
            if q0 = ':' then
              match pValue f (skipWsL r2) with
              | none => none
              | some (v, r3) =>
                match skipWsL r3 with
                | [] => none
                | s0 :: r4 =>
                  if s0 = '\x7d' then some ([(String.mk k, v)], r4)
                  else if s0 = ',' then
                    match pMembers f (skipWsL r4) with
                    | some (ms, r5) => some ((String.mk k, v) :: ms, r5)
                    | none => none
                  else none
            else none
      else none

end

/-- Model of `json.loads`: skip leading whitespace, parse one value, and
require only whitespace to remain.  The fuel `2 * length + 2` dominates the
recursion depth, which consumes at least one character every two calls. -/
def jsonLoads (s : String) : Option Json :=
  match pValue (2 * s.length + 2) (skipWsL s.data) with
  | some (v, rest) => if skipWsL rest = [] then some v else none
  | none => none

/-! ## The frame accumulator (`receive_messages` lines 186-276) -/

/-- The 50 MB buffer ceiling (`MAX_BUFFER_SIZE = 50 * 1024 * 1024`). -/
def MAX_BUFFER_SIZE : Nat := 50 * 1024 * 1024

/-- The two fatal conditions raised inside the accumulator loop:
the pre-append size check of lines 205-210, and the too-large-yet-invalid
re-raise of line 268 (`SDKJSONDecodeError` in the source). -/
inductive StreamError where
  | bufferOverflow
  | jsonTooLarge (preview : String)
deriving DecidableEq, Repr

/-- The loop state across lines: `json_buffer` plus the scanner state. -/
structure FeedState where
  json_buffer : String
  scan : ScanSt
deriving DecidableEq, Repr

/-- All loop variables as initialised at lines 186-190 (and reset at lines
254-259 and 270-275). -/
def initFeed : FeedState := ⟨"", cleanSt⟩

/-- Does the buffer start with a brace or bracket (line 262)? -/
def beginsBrace (s : String) : Bool :=
  match s.data with
  | c :: _ => c = '\x7b' || c = '['
  | [] => false

/-- One iteration of `async for line in self._stdout_stream` (lines
195-276): strip the line, ignore it if empty, enforce the size ceiling,
append to the buffer, scan the new characters only, and on balanced
counters attempt a parse, yielding, resyncing, or failing as the source
does. -/
def feedLine (st : FeedState) (line : String) : Except StreamError (FeedState × Option Json) :=
  let line_str := pyStrip line
  if line_str = "" then Except.ok (st, none)
  else if MAX_BUFFER_SIZE < st.json_buffer.length + line_str.length then
    Except.error StreamError.bufferOverflow
  else
    let buf := joinBuf st.json_buffer line_str
    let sc := scanChars st.scan line_str.data
    if buf ≠ "" ∧ scanDone sc then
      match jsonLoads buf with
      | some v => Except.ok (initFeed, some v)
      | none =>
        if beginsBrace buf then
          if buf.length < MAX_BUFFER_SIZE then Except.ok (⟨buf, sc⟩, none)
          else Except.error (StreamError.jsonTooLarge ((buf.take 1000) ++ "..."))
        else Except.ok (initFeed, none)
    else Except.ok (⟨buf, sc⟩, none)

/-- Run the accumulator over a whole list of stdout lines, collecting the
yielded values in order; a raised `StreamError` aborts the run, keeping
the values already yielded. -/
def runLines : FeedState → List String → List Json × Except StreamError FeedState
  | st, [] => ([], Except.ok st)
  | st, l :: ls =>
    match feedLine st l with
    | Except.error e => ([], Except.error e)
    | Except.ok (st', none) => runLines st' ls
    | Except.ok (st', some v) =>
      let r := runLines st' ls
      (v :: r.1, r.2)

/-! ## Python `str.lower` (ASCII) and substring containment, for the
`"error" in stderr_output.lower()` test of line 284 -/

/-- ASCII lowercasing of one character. -/
def asciiLowerCh (c : Char) : Char :=
  if 'A' ≤ c ∧ c ≤ 'Z' then Char.ofNat (c.toNat + 32) else c

/-- Model of `str.lower()` on ASCII text. -/
def asciiLower (s : String) : String := String.mk (s.data.map asciiLowerCh)

/-- Does the haystack begin with the needle? -/
def beginsWith : List Char → List Char → Bool
  | _, [] => true
  | [], _ :: _ => false
  | c :: cs, n :: ns => c = n && beginsWith cs ns

/-- Model of Python's `needle in haystack` substring test. -/
def hasSub : List Char → List Char → Bool
  | [], ns => ns.isEmpty
  | c :: cs, ns => beginsWith (c :: cs) ns || hasSub cs ns

/-- The error indicator searched for at line 284. -/
def errNeedle : List Char := ['e', 'r', 'r', 'o', 'r']

/-! ## Transport lifecycle (`connect`/`disconnect`/`send_request`/guards) -/

/-- The child process handle, observed through its exit status: `none`
while running, `some code` after exit. -/
structure Proc where
  returncode : Option Int
deriving DecidableEq, Repr

/-- The transport's mutable references: `_process`, `_stdout_stream`,
`_stderr_stream` (streams modelled only by their presence). -/
structure TState where
  process : Option Proc
  stdout_stream : Option Unit
  stderr_stream : Option Unit
deriving DecidableEq, Repr

/-- How a live child reacts to the termination request in `disconnect`:
it exits within the 5-second budget, it ignores the request so the wait
times out, or it has already disappeared so that `terminate()` raises
`ProcessLookupError`. -/
inductive TermBehavior where
  | exitsInTime
  | ignoresTerm
  | vanishes
deriving DecidableEq, Repr

/-- The process-handle operations `disconnect` can invoke. -/
inductive PAction where
  | terminate
  | waitProc
  | kill
deriving DecidableEq, Repr

/-- Model of `disconnect` (lines 143-161): no-op without a process; on a
process with a recorded exit code, skip all termination actions; on a live
child, terminate, then wait with a 5-second budget, escalating to kill plus
an unconditional wait on timeout, and swallow `ProcessLookupError` when the
child vanished; finally drop all three references.  Returns the new state
and the ordered process actions performed. -/
def disconnect (s : TState) (b : TermBehavior) : TState × List PAction :=
  match s.process with
  | none => (s, [])
  | some p =>
    let acts :=
      if p.returncode = none then
        match b with
        | TermBehavior.exitsInTime => [PAction.terminate, PAction.waitProc]
        | TermBehavior.ignoresTerm =>
            [PAction.terminate, PAction.waitProc, PAction.kill, PAction.waitProc]
        | TermBehavior.vanishes => [PAction.terminate]
      else []
    (⟨none, none, none⟩, acts)

/-- Model of `send_request` (lines 163-164): the body is empty, so it
returns Python's implicit `None` and touches nothing. -/
def send_request (s : TState) (messages : List Json)
    (options : List (String × Json)) : TState × Option Json :=
  (s, none)

/-- Every failure `receive_messages` can surface to its caller. -/
inductive SdkError where
  | notConnected
  | bufferOverflow
  | jsonTooLarge (preview : String)
  | processFailed (exit_code : Int) (stderr : String)
deriving DecidableEq, Repr

/-- The post-stream reconciliation of lines 281-289: after waiting for the
child, raise `ProcessError` exactly when the exit code is non-zero and the
collected stderr text is non-empty and contains `"error"` after
lowercasing. -/
def endCheck (returncode : Int) (stderr_lines : List String) : Option SdkError :=
  let stderr_output := joinNl stderr_lines
  if returncode ≠ 0 then
    if stderr_output ≠ "" ∧ hasSub (asciiLower stderr_output).data errNeedle then
      some (SdkError.processFailed returncode stderr_output)
    else none
  else none

/-- Whole-run model of `receive_messages` (lines 166-289): fail immediately
with the not-connected error unless both the process and the stdout stream
reference are present; otherwise run the frame accumulator over the stdout
lines (stderr is drained concurrently into `stderr_lines`; its contents and
the eventual exit code are supplied as inputs), propagating an accumulator
error, or on clean end of stream performing the exit-status reconciliation.
Returns the (unchanged) transport state, the values yielded in order, and
the failure, if any, that ends the sequence. -/
def receive_messages (s : TState) (stdoutLines stderr_lines : List String)
    (exitCode : Int) : TState × List Json × Option SdkError :=
  if s.process = none ∨ s.stdout_stream = none then
    (s, [], some SdkError.notConnected)
  else
    match runLines initFeed stdoutLines with
    | (msgs, Except.error StreamError.bufferOverflow) =>
        (s, msgs, some SdkError.bufferOverflow)
    | (msgs, Except.error (StreamError.jsonTooLarge p)) =>
        (s, msgs, some (SdkError.jsonTooLarge p))
    | (msgs, Except.ok _) => (s, msgs, endCheck exitCode stderr_lines)

/-! ## Basic facts about the scanner -/

theorem scanChars_nil (st : ScanSt) : scanChars st [] = st := rfl

theorem scanChars_cons (st : ScanSt) (c : Char) (cs : List Char) :
    scanChars st (c :: cs) = scanChars (scanChar st c) cs := rfl

theorem scanChars_append (st : ScanSt) (a b : List Char) :
    scanChars st (a ++ b) = scanChars (scanChars st a) b :=
  List.foldl_append scanChar st a b

/-- A character that is none of the six special ones leaves a clean state
unchanged. -/
def plainCh (c : Char) : Bool :=
  !(c = '"' || c = '\\' || c = '\x7b' || c = '\x7d' || c = '[' || c = ']')

theorem scanChar_plain {c : Char} (h : plainCh c = true) (b k : Int) (e : Bool) :
    scanChar ⟨b, k, false, e⟩ c = ⟨b, k, false, e⟩ := by
  simp only [plainCh, Bool.not_eq_true', Bool.or_eq_false_iff, decide_eq_false_iff_not] at h
  obtain ⟨⟨⟨⟨⟨h1, h2⟩, h3⟩, h4⟩, h5⟩, h6⟩ := h
  simp [scanChar, h1, h3, h4, h5, h6]

theorem scanChars_plain {cs : List Char} (h : ∀ c ∈ cs, plainCh c = true)
    (b k : Int) (e : Bool) : scanChars ⟨b, k, false, e⟩ cs = ⟨b, k, false, e⟩ := by
  induction cs with
  | nil => rfl
  | cons c cs ih =>
    rw [scanChars_cons, scanChar_plain (h c (List.mem_cons_self c cs))]
    exact ih fun x hx => h x (List.mem_cons_of_mem c hx)

theorem scanChar_newline {st : ScanSt} (h : st.escape_next = false) :
    scanChar st '\n' = st := by
  obtain ⟨b, k, i, e⟩ := st
  simp only at h
  subst h
  cases i <;> simp [scanChar]

/-! ## Facts about `pyStrip` -/

theorem dropWhile_head_not (p : Char → Bool) :
    ∀ (xs : List Char) (a : Char), (xs.dropWhile p).head? = some a → p a = false := by
  intro xs
  induction xs with
  | nil => intro a h; simp [List.dropWhile] at h
  | cons x xs ih =>
    intro a h
    rw [List.dropWhile_cons] at h
    by_cases hp : p x = true
    · rw [if_pos hp] at h; exact ih a h
    · rw [if_neg hp] at h
      simp only [List.head?_cons, Option.some.injEq] at h
      subst h
      exact Bool.eq_false_iff.mpr hp

theorem dropWhile_of_head_not {p : Char → Bool} {xs : List Char}
    (h : ∀ a, xs.head? = some a → p a = false) : xs.dropWhile p = xs := by
  cases xs with
  | nil => rfl
  | cons x xs => rw [List.dropWhile_cons, if_neg (by simp [h x rfl])]

theorem dropWhile_idem (p : Char → Bool) (xs : List Char) :
    (xs.dropWhile p).dropWhile p = xs.dropWhile p :=
  dropWhile_of_head_not (dropWhile_head_not p xs)

theorem getLast?_dropWhile (p : Char → Bool) :
    ∀ xs : List Char, xs.dropWhile p ≠ [] → (xs.dropWhile p).getLast? = xs.getLast? := by
  intro xs
  induction xs with
  | nil => intro h; simp [List.dropWhile] at h
  | cons x xs ih =>
    intro h
    rw [List.dropWhile_cons] at h ⊢
    by_cases hp : p x = true
    · rw [if_pos hp] at h ⊢
      rw [ih h]
      have hxs : xs ≠ [] := by
        intro he; rw [he] at h; simp [List.dropWhile] at h
      cases xs with
      | nil => exact absurd rfl hxs
      | cons y ys => rw [List.getLast?_cons_cons]
    · rw [if_neg hp]

theorem pyStripL_head_not {xs : List Char} {a : Char}
    (h : (pyStripL xs).head? = some a) : isPySpace a = false := by
  unfold pyStripL at h
  rw [List.head?_reverse] at h
  set w := (xs.dropWhile isPySpace).reverse.dropWhile isPySpace with hw
  have hne : w ≠ [] := by
    intro he; rw [he] at h; simp at h
  rw [hw, getLast?_dropWhile isPySpace _ (hw ▸ hne), List.getLast?_reverse] at h
  exact dropWhile_head_not isPySpace xs a h

theorem pyStripL_getLast_not {xs : List Char} {a : Char}
    (h : (pyStripL xs).getLast? = some a) : isPySpace a = false := by
  unfold pyStripL at h
  rw [List.getLast?_reverse] at h
  exact dropWhile_head_not isPySpace _ a h

theorem pyStripL_idem (xs : List Char) : pyStripL (pyStripL xs) = pyStripL xs := by
  have h1 : (pyStripL xs).dropWhile isPySpace = pyStripL xs :=
    dropWhile_of_head_not fun a ha => pyStripL_head_not ha
  show (((pyStripL xs).dropWhile isPySpace).reverse.dropWhile isPySpace).reverse = pyStripL xs
  rw [h1]
  unfold pyStripL
  rw [List.reverse_reverse, dropWhile_idem]

theorem pyStrip_idem (s : String) : pyStrip (pyStrip s) = pyStrip s := by
  unfold pyStrip
  rw [show (String.mk (pyStripL s.data)).data = pyStripL s.data from rfl, pyStripL_idem]

theorem pyStrip_head_not {s : String} {a : Char}
    (hs : pyStrip s = s) (h : s.data.head? = some a) : isPySpace a = false := by
  have : (pyStrip s).data = s.data := by rw [hs]
  have hd : pyStripL s.data = s.data := this
  exact pyStripL_head_not (by rw [hd]; exact h)

theorem pyStrip_getLast_not {s : String} {a : Char}
    (hs : pyStrip s = s) (h : s.data.getLast? = some a) : isPySpace a = false := by
  have hd : pyStripL s.data = s.data := by
    have : (pyStrip s).data = s.data := by rw [hs]
    exact this
  exact pyStripL_getLast_not (by rw [hd]; exact h)

/-! ## Unfolding lemmas for `runLines` and `feedLine` -/

theorem runLines_nil (st : FeedState) : runLines st [] = ([], Except.ok st) := rfl

theorem runLines_cons_err {st : FeedState} {l : String} {e : StreamError}
    (h : feedLine st l = Except.error e) (ls : List String) :
    runLines st (l :: ls) = ([], Except.error e) := by
  simp [runLines, h]

theorem runLines_cons_none {st st' : FeedState} {l : String}
    (h : feedLine st l = Except.ok (st', none)) (ls : List String) :
    runLines st (l :: ls) = runLines st' ls := by
  simp [runLines, h]

theorem runLines_cons_some {st st' : FeedState} {l : String} {v : Json}
    (h : feedLine st l = Except.ok (st', some v)) (ls : List String) :
    runLines st (l :: ls) = (v :: (runLines st' ls).1, (runLines st' ls).2) := by
  simp [runLines, h]

theorem joinBuf_ne {b l : String} (h : l ≠ "") : joinBuf b l ≠ "" := by
  unfold joinBuf
  by_cases hb : b = ""
  · rw [if_pos hb]; exact h
  · rw [if_neg hb]
    intro he
    have : (b ++ "\n" ++ l).length = 0 := by rw [he]; rfl
    rw [String.length_append, String.length_append] at this
    have hn : ("\n" : String).length = 1 := rfl
    omega

/-- Characterisation of the non-completing step: the line is appended and
scanned, nothing is emitted. -/
theorem feedLine_continue {st : FeedState} {l : String}
    (h1 : pyStrip l ≠ "")
    (h2 : ¬ MAX_BUFFER_SIZE < st.json_buffer.length + (pyStrip l).length)
    (h3 : ¬ (joinBuf st.json_buffer (pyStrip l) ≠ "" ∧
      scanDone (scanChars st.scan (pyStrip l).data))) :
    feedLine st l = Except.ok
      (⟨joinBuf st.json_buffer (pyStrip l), scanChars st.scan (pyStrip l).data⟩, none) := by
  unfold feedLine
  rw [if_neg h1, if_neg h2, if_neg h3]

/-- Characterisation of the yielding step: counters balanced, parse
succeeds, the value is emitted and the state fully reset. -/
theorem feedLine_yield {st : FeedState} {l : String} {v : Json}
    (h1 : pyStrip l ≠ "")
    (h2 : ¬ MAX_BUFFER_SIZE < st.json_buffer.length + (pyStrip l).length)
    (h3 : joinBuf st.json_buffer (pyStrip l) ≠ "" ∧
      scanDone (scanChars st.scan (pyStrip l).data))
    (h4 : jsonLoads (joinBuf st.json_buffer (pyStrip l)) = some v) :
    feedLine st l = Except.ok (initFeed, some v) := by
  unfold feedLine
  rw [if_neg h1, if_neg h2, if_pos h3, h4]

/-- Any value actually yielded by one `feedLine` step parses from the
appended buffer. -/
theorem feed_emit {st st' : FeedState} {l : String} {v : Json}
    (h : feedLine st l = Except.ok (st', some v)) :
    jsonLoads (joinBuf st.json_buffer (pyStrip l)) = some v := by
  unfold feedLine at h
  by_cases h1 : pyStrip l = ""
  · rw [if_pos h1] at h
    simp at h
  · rw [if_neg h1] at h
    by_cases h2 : MAX_BUFFER_SIZE < st.json_buffer.length + (pyStrip l).length
    · rw [if_pos h2] at h; simp at h
    · rw [if_neg h2] at h
      simp only at h
      by_cases h3 : joinBuf st.json_buffer (pyStrip l) ≠ "" ∧
          scanDone (scanChars st.scan (pyStrip l).data)
      · rw [if_pos h3] at h
        cases hj : jsonLoads (joinBuf st.json_buffer (pyStrip l)) with
        | some u =>
          rw [hj] at h
          simp only [Except.ok.injEq, Prod.mk.injEq] at h
          exact h.2
        | none =>
          rw [hj] at h
          by_cases h4 : beginsBrace (joinBuf st.json_buffer (pyStrip l)) = true
          · rw [if_pos h4] at h
            by_cases h5 : (joinBuf st.json_buffer (pyStrip l)).length < MAX_BUFFER_SIZE
            · rw [if_pos h5] at h; simp at h
            · rw [if_neg h5] at h; simp at h
          · rw [if_neg h4] at h; simp at h
      · rw [if_neg h3] at h; simp at h

/-! ## Helper lemmas for the end-of-stream reconciliation -/

theorem receive_ok {s : TState} {p : Proc} {stdoutLines stderr_lines : List String}
    {exitCode : Int} {msgs : List Json} {fs : FeedState}
    (hp : s.process = some p) (ho : s.stdout_stream = some ())
    (hrun : runLines initFeed stdoutLines = (msgs, Except.ok fs)) :
    receive_messages s stdoutLines stderr_lines exitCode =
      (s, msgs, endCheck exitCode stderr_lines) := by
  unfold receive_messages
  rw [if_neg (by rw [hp, ho]; simp), hrun]

theorem endCheck_iff (rc : Int) (ls : List String) :
    (endCheck rc ls = some (SdkError.processFailed rc (joinNl ls)) ↔
      rc ≠ 0 ∧ hasSub (asciiLower (joinNl ls)).data errNeedle = true) ∧
    (¬(rc ≠ 0 ∧ hasSub (asciiLower (joinNl ls)).data errNeedle = true) →
      endCheck rc ls = none) := by
  constructor
  · constructor
    · intro h
      unfold endCheck at h
      by_cases h1 : rc ≠ 0
      · rw [if_pos h1] at h
        by_cases h2 : joinNl ls ≠ "" ∧ hasSub (asciiLower (joinNl ls)).data errNeedle = true
        · exact ⟨h1, h2.2⟩
        · rw [if_neg h2] at h; simp at h
      · rw [if_neg h1] at h; simp at h
    · intro h
      unfold endCheck
      have hne : joinNl ls ≠ "" := by
        intro he
        rw [he] at h
        have : hasSub (asciiLower "").data errNeedle = false := rfl
        rw [this] at h
        simp at h
      rw [if_pos h.1, if_pos ⟨hne, h.2⟩]
  · intro h
    unfold endCheck
    by_cases h1 : rc ≠ 0
    · rw [if_pos h1]
      rw [if_neg (fun hcon => h ⟨h1, hcon.2⟩)]
    · rw [if_neg h1]

/-- The spec's sample frame with brackets, braces and an escaped quote
inside a string: the JSON text is the object with a single member
`text` whose value is the string with a literal bracketed/braced text and
an escaped quote. -/
def c2Line : String := "\x7b\"text\": \"a [b] \x7bc\x7d \\\" d\"\x7d"

/-- Is the top level of a decoded value an object or an array? -/
def isContainerJ : Json → Bool
  | Json.obj _ => true
  | Json.arr _ => true
  | _ => false

/-! ## Claim theorems (all but C1) -/

/-- C7: `disconnect` is idempotent and tolerant: with no process, or an
already-exited child, no termination action is performed; on a live child it
terminates, waits, escalating to kill plus wait on timeout, and a vanished
child (ProcessLookupError) is tolerated silently; afterwards all references
are dropped so repeated calls are no-ops. -/
theorem claim_C7 :
    (∀ (s : TState) (b : TermBehavior), s.process = none → disconnect s b = (s, [])) ∧
    (∀ (s : TState) (b : TermBehavior) (p : Proc) (c : Int),
      s.process = some p → p.returncode = some c →
      disconnect s b = (⟨none, none, none⟩, [])) ∧
    (∀ (s : TState) (p : Proc), s.process = some p → p.returncode = none →
      disconnect s TermBehavior.exitsInTime =
        (⟨none, none, none⟩, [PAction.terminate, PAction.waitProc]) ∧
      disconnect s TermBehavior.ignoresTerm =
        (⟨none, none, none⟩,
          [PAction.terminate, PAction.waitProc, PAction.kill, PAction.waitProc]) ∧
      disconnect s TermBehavior.vanishes = (⟨none, none, none⟩, [PAction.terminate])) ∧
    (∀ (s : TState) (b b2 : TermBehavior),
      disconnect (disconnect s b).1 b2 = ((disconnect s b).1, [])) := by
  refine ⟨?_, ?_, ?_, ?_⟩
  · intro s b h; unfold disconnect; rw [h]
  · intro s b p c hp hc; unfold disconnect; rw [hp]; simp [hc]
  · intro s p hp hc
    refine ⟨?_, ?_, ?_⟩ <;> (unfold disconnect; rw [hp]; simp [hc])
  · intro s b b2
    cases hp : s.process with
    | none =>
      have h1 : disconnect s b = (s, []) := by unfold disconnect; rw [hp]
      rw [h1]
      show disconnect s b2 = (s, [])
      unfold disconnect; rw [hp]
    | some p =>
      have h1 : (disconnect s b).1 = ⟨none, none, none⟩ := by
        unfold disconnect; rw [hp]
      rw [h1]
      rfl

theorem claim_C7_witness :
    disconnect ⟨some ⟨none⟩, some (), some ()⟩ TermBehavior.ignoresTerm =
      (⟨none, none, none⟩,
        [PAction.terminate, PAction.waitProc, PAction.kill, PAction.waitProc]) :=
  (claim_C7.2.2.1 ⟨some ⟨none⟩, some (), some ()⟩ ⟨none⟩ rfl rfl).2.1

/-- C8: calling `receive_messages` with no process or no stdout stream
fails immediately with the not-connected error, yields nothing, and leaves
the transport state unchanged. -/
theorem claim_C8 (s : TState) (stdoutLines stderr_lines : List String) (exitCode : Int)
    (h : s.process = none ∨ s.stdout_stream = none) :
    receive_messages s stdoutLines stderr_lines exitCode =
      (s, [], some SdkError.notConnected) := by
  unfold receive_messages
  rw [if_pos h]

theorem claim_C8_witness :
    receive_messages ⟨none, none, none⟩ ["\x7b\x7d"] [] 0 =
      (⟨none, none, none⟩, [], some SdkError.notConnected) :=
  claim_C8 ⟨none, none, none⟩ ["\x7b\x7d"] [] 0 (Or.inl rfl)

/-- C10: `send_request` has an empty body: for every argument pair it
returns `None`, raises nothing (it is a total function), and leaves the
transport state unchanged. -/
theorem claim_C10 : ∀ (s : TState) (messages : List Json)
    (options : List (String × Json)), send_request s messages options = (s, none) :=
  fun _ _ _ => rfl

/-- C4: after a cleanly ended stream, `receive_messages` surfaces a process
failure carrying the exit code and joined diagnostic text iff the exit code
is non-zero and the lowercased diagnostic text contains `"error"`;
otherwise it ends silently, preserving the yielded messages. -/
theorem claim_C4 (s : TState) (p : Proc) (stdoutLines stderr_lines : List String)
    (rc : Int) (msgs : List Json) (fs : FeedState)
    (hp : s.process = some p) (ho : s.stdout_stream = some ())
    (hrun : runLines initFeed stdoutLines = (msgs, Except.ok fs)) :
    (receive_messages s stdoutLines stderr_lines rc =
        (s, msgs, some (SdkError.processFailed rc (joinNl stderr_lines)))
      ↔ rc ≠ 0 ∧ hasSub (asciiLower (joinNl stderr_lines)).data errNeedle = true) ∧
    (¬(rc ≠ 0 ∧ hasSub (asciiLower (joinNl stderr_lines)).data errNeedle = true) →
      receive_messages s stdoutLines stderr_lines rc = (s, msgs, none)) := by
  rw [receive_ok hp ho hrun]
  constructor
  · constructor
    · intro h
      have h3 : endCheck rc stderr_lines =
          some (SdkError.processFailed rc (joinNl stderr_lines)) := by
        have h4 := congrArg (fun t => t.2.2) h
        simpa using h4
      exact (endCheck_iff rc stderr_lines).1.mp h3
    · intro h
      rw [(endCheck_iff rc stderr_lines).1.mpr h]
  · intro h
    rw [(endCheck_iff rc stderr_lines).2 h]

def conn0 : TState := ⟨some ⟨some 1⟩, some (), some ()⟩

theorem claim_C4_witness :
    receive_messages conn0 [] ["Error: bad flag"] 1 =
      (conn0, [], some (SdkError.processFailed 1 "Error: bad flag")) :=
  (claim_C4 conn0 ⟨some 1⟩ [] ["Error: bad flag"] 1 [] initFeed rfl rfl rfl).1.mpr
    ⟨by decide, by rfl⟩

/-- C2: while `in_string` is set no character moves the nesting counters
(in particular literal braces and brackets inside strings); a backslash
inside a string sets `escape_next`, and the escaped character (for example
a quote) is consumed without ending the string; the sample frame containing
brackets, braces and an escaped quote inside a string completes only at its
final closing brace, never at any proper prefix. -/
theorem claim_C2 :
    (∀ (st : ScanSt) (c : Char), st.in_string = true →
      (scanChar st c).brace_count = st.brace_count ∧
      (scanChar st c).bracket_count = st.bracket_count) ∧
    (∀ st : ScanSt, st.in_string = true → st.escape_next = false →
      (scanChar st '\\').escape_next = true ∧ (scanChar st '\\').in_string = true) ∧
    (∀ (st : ScanSt) (c : Char), st.in_string = true → st.escape_next = true →
      (scanChar st c).in_string = true ∧ (scanChar st c).escape_next = false) ∧
    runLines initFeed [c2Line] =
      ([Json.obj [("text", Json.str "a [b] \x7bc\x7d \" d")]], Except.ok initFeed) ∧
    (∀ k, k < c2Line.length → 0 < k → ¬ scanDone (scan00 (c2Line.data.take k))) := by
  refine ⟨?_, ?_, ?_, rfl, by decide⟩
  · intro st c h
    unfold scanChar
    rw [if_pos h]
    split_ifs <;> simp
  · intro st h he
    unfold scanChar
    rw [if_pos h, if_neg (by simp [he]), if_pos rfl]
    exact ⟨rfl, h⟩
  · intro st c h he
    unfold scanChar
    rw [if_pos h, if_pos he]
    exact ⟨h, rfl⟩

theorem claim_C2_witness :
    (scanChar ⟨2, 3, true, false⟩ '\x7d').brace_count = 2 ∧
    (scanChar ⟨2, 3, true, false⟩ '\x7d').bracket_count = 3 :=
  claim_C2.1 ⟨2, 3, true, false⟩ '\x7d' rfl

/-- C3: when the appended buffer is bracket-balanced and out-of-string but
fails to parse and does not start with a brace or bracket, `feedLine` emits
nothing, resets buffer, counters and flags, and returns normally (no error
reaches the caller), so subsequent lines are processed from a fresh state;
and the spec's scenario: a non-JSON line followed by a valid frame yields
exactly that frame. -/
theorem claim_C3 :
    (∀ (st : FeedState) (l : String),
      pyStrip l ≠ "" →
      st.json_buffer.length + (pyStrip l).length ≤ MAX_BUFFER_SIZE →
      scanDone (scanChars st.scan (pyStrip l).data) →
      jsonLoads (joinBuf st.json_buffer (pyStrip l)) = none →
      beginsBrace (joinBuf st.json_buffer (pyStrip l)) = false →
      feedLine st l = Except.ok (initFeed, none) ∧
      ∀ ls, runLines st (l :: ls) = runLines initFeed ls) ∧
    runLines initFeed ["not json", "\x7b\"ok\":true\x7d"] =
      ([Json.obj [("ok", Json.bool true)]], Except.ok initFeed) := by
  constructor
  · intro st l h1 h2 hc hp hb
    have hfe : feedLine st l = Except.ok (initFeed, none) := by
      unfold feedLine
      rw [if_neg h1, if_neg (by omega)]
      simp only
      rw [if_pos ⟨joinBuf_ne h1, hc⟩, hp, if_neg (by simp [hb])]
    exact ⟨hfe, fun ls => runLines_cons_none hfe ls⟩
  · rfl

theorem claim_C3_witness :
    feedLine initFeed "not json" = Except.ok (initFeed, none) :=
  (claim_C3.1 initFeed "not json" (by decide) (by decide) (by decide)
    (by rfl) (by rfl)).1

/-! ## C5: the buffer ceiling check -/

theorem dropWhile_replicate_not {p : Char → Bool} {c : Char} (h : p c = false) (n : Nat) :
    (List.replicate n c).dropWhile p = List.replicate n c := by
  cases n with
  | zero => rfl
  | succ m => rw [List.replicate_succ, List.dropWhile_cons, if_neg (by simp [h])]

/-- A line of `MAX_BUFFER_SIZE - 1` digit characters. -/
def bigLine : String := String.mk (List.replicate (MAX_BUFFER_SIZE - 1) '1')

/-- The state reached after feeding `"["` and then `bigLine`: the buffer
holds `MAX_BUFFER_SIZE + 1` characters (the ceiling is exceeded by the
joining newline) yet no failure was raised. -/
def bigState : FeedState := ⟨"[" ++ "\n" ++ bigLine, ⟨0, 1, false, false⟩⟩

theorem pyStrip_bigLine : pyStrip bigLine = bigLine := by
  unfold pyStrip bigLine pyStripL
  rw [show (String.mk (List.replicate (MAX_BUFFER_SIZE - 1) '1')).data =
      List.replicate (MAX_BUFFER_SIZE - 1) '1' from rfl]
  rw [dropWhile_replicate_not (by decide), List.reverse_replicate,
    dropWhile_replicate_not (by decide), List.reverse_replicate]

theorem bigLine_length : bigLine.length = MAX_BUFFER_SIZE - 1 := by
  show (List.replicate (MAX_BUFFER_SIZE - 1) '1').length = _
  exact List.length_replicate _ _

theorem scanChars_ones (b k : Int) (e : Bool) (n : Nat) :
    scanChars ⟨b, k, false, e⟩ (List.replicate n '1') = ⟨b, k, false, e⟩ :=
  scanChars_plain (fun c hc => by rw [List.eq_of_mem_replicate hc]; decide) b k e

theorem MAX_pos : 1 ≤ MAX_BUFFER_SIZE := by norm_num [MAX_BUFFER_SIZE]

theorem feed_bigLine :
    feedLine ⟨"[", ⟨0, 1, false, false⟩⟩ bigLine = Except.ok (bigState, none) := by
  have hne : bigLine ≠ "" := by
    intro h
    have h2 := congrArg String.length h
    rw [bigLine_length] at h2
    have := MAX_pos
    simp [MAX_BUFFER_SIZE] at h2
  have hsz : ¬ MAX_BUFFER_SIZE <
      (⟨"[", ⟨0, 1, false, false⟩⟩ : FeedState).json_buffer.length + (pyStrip bigLine).length := by
    rw [pyStrip_bigLine, bigLine_length]
    show ¬ MAX_BUFFER_SIZE < ("[" : String).length + (MAX_BUFFER_SIZE - 1)
    have h1 : ("[" : String).length = 1 := rfl
    have := MAX_pos
    omega
  have hs : scanChars (⟨0, 1, false, false⟩ : ScanSt) bigLine.data = ⟨0, 1, false, false⟩ := by
    show scanChars _ (List.replicate (MAX_BUFFER_SIZE - 1) '1') = _
    exact scanChars_ones 0 1 false _
  have hb : joinBuf "[" bigLine = "[" ++ "\n" ++ bigLine := by
    unfold joinBuf
    rw [if_neg (by decide)]
  have hdone : ¬ (joinBuf ((⟨"[", ⟨0, 1, false, false⟩⟩ : FeedState)).json_buffer
      (pyStrip bigLine) ≠ "" ∧
      scanDone (scanChars (⟨"[", ⟨0, 1, false, false⟩⟩ : FeedState).scan
        (pyStrip bigLine).data)) := by
    intro hcon
    have h6 := hcon.2
    rw [pyStrip_bigLine] at h6
    rw [show (⟨"[", ⟨0, 1, false, false⟩⟩ : FeedState).scan = ⟨0, 1, false, false⟩ from rfl,
      hs] at h6
    exact absurd h6 (by decide)
  rw [feedLine_continue (by rw [pyStrip_bigLine]; exact hne) hsz hdone]
  rw [show (⟨"[", ⟨0, 1, false, false⟩⟩ : FeedState).scan = ⟨0, 1, false, false⟩ from rfl]
  rw [show (⟨"[", ⟨0, 1, false, false⟩⟩ : FeedState).json_buffer = "[" from rfl]
  rw [pyStrip_bigLine, hs, hb]
  rfl

theorem bigState_len : bigState.json_buffer.length = MAX_BUFFER_SIZE + 1 := by
  show ("[" ++ "\n" ++ bigLine).length = _
  rw [String.length_append, String.length_append, bigLine_length]
  have h1 : ("[" : String).length = 1 := rfl
  have h2 : ("\n" : String).length = 1 := rfl
  have := MAX_pos
  omega

/-- C5 counterexample: feeding `"["` and then a line of
`MAX_BUFFER_SIZE - 1` characters leaves the accumulator in a normal,
non-failed state whose buffer holds `MAX_BUFFER_SIZE + 1` characters: the
buffer size after appending exceeds the 50 MB ceiling (because the joining
newline is not counted by the pre-append check), yet no frame-too-large
failure is raised, refuting the claim as stated. -/
theorem claim_C5_counterexample :
    runLines initFeed ["[", bigLine] = ([], Except.ok bigState) ∧
    MAX_BUFFER_SIZE < bigState.json_buffer.length := by
  constructor
  · have h1 : feedLine initFeed "[" =
        Except.ok (⟨"[", ⟨0, 1, false, false⟩⟩, none) := rfl
    rw [runLines_cons_none h1, runLines_cons_none feed_bigLine, runLines_nil]
  · rw [bigState_len]; omega

/-- C5 (amended): the accumulator fails permanently with the
frame-too-large condition exactly when the pending buffer size plus the
stripped line size — not counting the joining newline — exceeds the 50 MB
ceiling; the check runs before appending, and any in-loop failure aborts
the stream with no further lines processed. -/
theorem claim_C5 (st : FeedState) (l : String) (h : pyStrip l ≠ "") :
    (feedLine st l = Except.error StreamError.bufferOverflow ↔
      MAX_BUFFER_SIZE < st.json_buffer.length + (pyStrip l).length) ∧
    ∀ (e : StreamError) (ls : List String),
      feedLine st l = Except.error e → runLines st (l :: ls) = ([], Except.error e) := by
  constructor
  · constructor
    · intro herr
      by_contra hsz
      unfold feedLine at herr
      rw [if_neg h, if_neg hsz] at herr
      simp only at herr
      by_cases h3 : joinBuf st.json_buffer (pyStrip l) ≠ "" ∧
          scanDone (scanChars st.scan (pyStrip l).data)
      · rw [if_pos h3] at herr
        cases hj : jsonLoads (joinBuf st.json_buffer (pyStrip l)) with
        | some v => rw [hj] at herr; simp at herr
        | none =>
          rw [hj] at herr
          by_cases h4 : beginsBrace (joinBuf st.json_buffer (pyStrip l)) = true
          · rw [if_pos h4] at herr
            by_cases h5 : (joinBuf st.json_buffer (pyStrip l)).length < MAX_BUFFER_SIZE
            · rw [if_pos h5] at herr; simp at herr
            · rw [if_neg h5] at herr; simp at herr
          · rw [if_neg h4] at herr; simp at herr
      · rw [if_neg h3] at herr; simp at herr
    · intro hsz
      unfold feedLine
      rw [if_neg h, if_pos hsz]
  · intro e ls hfe
    exact runLines_cons_err hfe ls

theorem claim_C5_witness :
    feedLine bigState "2" = Except.error StreamError.bufferOverflow :=
  (claim_C5 bigState "2" (by decide)).1.mpr (by
    rw [bigState_len]
    have h2 : (pyStrip "2").length = 1 := rfl
    omega)

/-! ## C6: top-level type of yielded values -/

/-- C6 counterexample: the single line `"5"` satisfies the completion test
(all counters zero) and parses, so the accumulator yields the scalar
number `5` — a yielded value whose top level is neither an object nor an
array, refuting the claim. -/
theorem claim_C6_counterexample :
    runLines initFeed ["5"] = ([Json.num "5"], Except.ok initFeed) ∧
    isContainerJ (Json.num "5") = false :=
  ⟨rfl, rfl⟩

/-- C6 (amended): every value yielded by the accumulator is a syntactically
valid JSON value — the parse of some buffer — but its top level may be any
JSON type, scalars included, since the zeroed counters do not force a
leading brace or bracket. -/
theorem claim_C6 : ∀ (st : FeedState) (ls : List String) (v : Json),
    v ∈ (runLines st ls).1 → ∃ s, jsonLoads s = some v := by
  intro st ls
  induction ls generalizing st with
  | nil => intro v hv; simp [runLines] at hv
  | cons l ls ih =>
    intro v hv
    cases hfe : feedLine st l with
    | error e => rw [runLines_cons_err hfe] at hv; simp at hv
    | ok r =>
      obtain ⟨st', ov⟩ := r
      cases ov with
      | none =>
        rw [runLines_cons_none hfe] at hv
        exact ih st' v hv
      | some w =>
        rw [runLines_cons_some hfe] at hv
        simp only [List.mem_cons] at hv
        cases hv with
        | inl hv =>
          subst hv
          exact ⟨joinBuf st.json_buffer (pyStrip l), feed_emit hfe⟩
        | inr hv => exact ih st' v hv

theorem claim_C6_witness : ∃ s, jsonLoads s = some (Json.obj []) := by
  apply claim_C6 initFeed ["\x7b\x7d"] (Json.obj [])
  have h : (runLines initFeed ["\x7b\x7d"]).1 = [Json.obj []] := rfl
  rw [h]
  exact List.mem_singleton.mpr rfl

/-! ## C9: dependence on stripped content only -/

/-- C9: a line's handling depends only on its stripped content; a
whitespace-only line causes no state change and no emission; a non-empty
line is appended stripped, with fragments joined by exactly one newline
(the buffer after a normal step is either the reset state or precisely that
join), and an emitted value parses from precisely that join. -/
theorem claim_C9 :
    (∀ (st : FeedState) (l : String), feedLine st l = feedLine st (pyStrip l)) ∧
    (∀ (st : FeedState) (l : String), pyStrip l = "" →
      feedLine st l = Except.ok (st, none)) ∧
    (∀ (st : FeedState) (l : String) (st' : FeedState) (ov : Option Json),
      pyStrip l ≠ "" → feedLine st l = Except.ok (st', ov) →
      st' = initFeed ∨ st'.json_buffer = joinBuf st.json_buffer (pyStrip l)) ∧
    (∀ (st : FeedState) (l : String) (st' : FeedState) (v : Json),
      feedLine st l = Except.ok (st', some v) →
      jsonLoads (joinBuf st.json_buffer (pyStrip l)) = some v) := by
  refine ⟨?_, ?_, ?_, ?_⟩
  · intro st l
    unfold feedLine
    rw [pyStrip_idem]
  · intro st l h
    unfold feedLine
    rw [if_pos h]
  · intro st l st' ov h hfe
    unfold feedLine at hfe
    rw [if_neg h] at hfe
    by_cases h2 : MAX_BUFFER_SIZE < st.json_buffer.length + (pyStrip l).length
    · rw [if_pos h2] at hfe; simp at hfe
    · rw [if_neg h2] at hfe
      simp only at hfe
      by_cases h3 : joinBuf st.json_buffer (pyStrip l) ≠ "" ∧
          scanDone (scanChars st.scan (pyStrip l).data)
      · rw [if_pos h3] at hfe
        cases hj : jsonLoads (joinBuf st.json_buffer (pyStrip l)) with
        | some u =>
          rw [hj] at hfe
          simp only [Except.ok.injEq, Prod.mk.injEq] at hfe
          exact Or.inl hfe.1.symm
        | none =>
          rw [hj] at hfe
          by_cases h4 : beginsBrace (joinBuf st.json_buffer (pyStrip l)) = true
          · rw [if_pos h4] at hfe
            by_cases h5 : (joinBuf st.json_buffer (pyStrip l)).length < MAX_BUFFER_SIZE
            · rw [if_pos h5] at hfe
              simp only [Except.ok.injEq, Prod.mk.injEq] at hfe
              right
              rw [← hfe.1]
            · rw [if_neg h5] at hfe; simp at hfe
          · rw [if_neg h4] at hfe
            simp only [Except.ok.injEq, Prod.mk.injEq] at hfe
            exact Or.inl hfe.1.symm
      · rw [if_neg h3] at hfe
        simp only [Except.ok.injEq, Prod.mk.injEq] at hfe
        right
        rw [← hfe.1]
  · intro st l st' v hfe
    exact feed_emit hfe

theorem claim_C9_witness : feedLine initFeed " " = Except.ok (initFeed, none) :=
  claim_C9.2.1 initFeed " " (by rfl)

/-! ## Infrastructure for C1: scanner shift and trace lemmas

The counters evolve additively and the string/escape flags depend only on
themselves, so a scan from any brace/bracket offset is the offset plus the
scan from zero.  `traceOk P st cs` says the scanner state immediately
before each character `c` of `cs` (scanning from `st`) satisfies `P _ c`;
prefix invariants of the loop are stated this way and composed along
appends. -/

theorem scanChar_shift (b k : Int) (s : ScanSt) (c : Char) :
    scanChar ⟨b + s.brace_count, k + s.bracket_count, s.in_string, s.escape_next⟩ c =
      ⟨b + (scanChar s c).brace_count, k + (scanChar s c).bracket_count,
       (scanChar s c).in_string, (scanChar s c).escape_next⟩ := by
  obtain ⟨sb, sk, si, se⟩ := s
  simp only [scanChar]
  cases si <;> cases se <;> simp <;> split_ifs <;> simp <;> omega

theorem scanChars_shift (cs : List Char) : ∀ (b k : Int) (s : ScanSt),
    scanChars ⟨b + s.brace_count, k + s.bracket_count, s.in_string, s.escape_next⟩ cs =
      ⟨b + (scanChars s cs).brace_count, k + (scanChars s cs).bracket_count,
       (scanChars s cs).in_string, (scanChars s cs).escape_next⟩ := by
  induction cs with
  | nil => intro b k s; rfl
  | cons c cs ihc =>
    intro b k s
    rw [scanChars_cons, scanChars_cons, scanChar_shift]
    exact ihc b k (scanChar s c)

theorem scanChars_clean_shift (b k : Int) (cs : List Char) :
    scanChars ⟨b, k, false, false⟩ cs =
      ⟨b + (scan00 cs).brace_count, k + (scan00 cs).bracket_count,
       (scan00 cs).in_string, (scan00 cs).escape_next⟩ := by
  have h := scanChars_shift cs b k cleanSt
  simpa [cleanSt, scan00] using h

/-- The scanner state right before each character of `cs` (scanning from
`st`) satisfies `P` of that state and that character. -/
def traceOk (P : ScanSt → Char → Prop) : ScanSt → List Char → Prop
  | _, [] => True
  | st, c :: cs => P st c ∧ traceOk P (scanChar st c) cs

theorem traceOk_append (P : ScanSt → Char → Prop) (a : List Char) :
    ∀ (st : ScanSt) (b : List Char),
      traceOk P st (a ++ b) ↔ traceOk P st a ∧ traceOk P (scanChars st a) b := by
  induction a with
  | nil => intro st b; simp [traceOk, scanChars_nil]
  | cons c a iha =>
    intro st b
    show (P st c ∧ traceOk P (scanChar st c) (a ++ b)) ↔
      (P st c ∧ traceOk P (scanChar st c) a) ∧ traceOk P (scanChars (scanChar st c) a) b
    rw [iha (scanChar st c) b]
    exact and_assoc.symm

theorem traceOk_mono {P Q : ScanSt → Char → Prop} (h : ∀ s c, P s c → Q s c) :
    ∀ (cs : List Char) (st : ScanSt), traceOk P st cs → traceOk Q st cs := by
  intro cs
  induction cs with
  | nil => intro st _; trivial
  | cons c cs ihc =>
    intro st hh
    exact ⟨h st c hh.1, ihc (scanChar st c) hh.2⟩

theorem traceOk_at {P : ScanSt → Char → Prop} :
    ∀ (q : List Char) (st : ScanSt) (c : Char) (r : List Char),
      traceOk P st (q ++ c :: r) → P (scanChars st q) c := by
  intro q
  induction q with
  | nil => intro st c r h; exact h.1
  | cons x q ihq =>
    intro st c r h
    rw [scanChars_cons]
    exact ihq (scanChar st x) c r h.2

theorem traceOk_shift {P Q : ScanSt → Char → Prop} (b k : Int)
    (h : ∀ s c, P s c →
      Q ⟨b + s.brace_count, k + s.bracket_count, s.in_string, s.escape_next⟩ c) :
    ∀ (cs : List Char) (s : ScanSt), traceOk P s cs →
      traceOk Q ⟨b + s.brace_count, k + s.bracket_count, s.in_string, s.escape_next⟩ cs := by
  intro cs
  induction cs with
  | nil => intro s _; trivial
  | cons c cs ihc =>
    intro s hh
    refine ⟨h s c hh.1, ?_⟩
    rw [scanChar_shift]
    exact ihc (scanChar s c) hh.2

/-! ## The piece invariants -/

/-- The characters that may legally follow a backslash inside a JSON
string (so the escape flag is only ever set right before one of them;
in particular never right before a newline). -/
def escSet (c : Char) : Bool :=
  c = '"' || c = '\\' || c = '/' || c = 'b' || c = 'f' || c = 'n' || c = 'r'
    || c = 't' || c = 'u'

/-- Both counters non-negative. -/
def okSt (st : ScanSt) : Prop := 0 ≤ st.brace_count ∧ 0 ≤ st.bracket_count

/-- Invariant along any JSON fragment scanned from a clean state: counters
non-negative, and the escape flag is set only right before a legal escape
character. -/
def pieceP (st : ScanSt) (c : Char) : Prop :=
  okSt st ∧ (st.escape_next = true → escSet c = true)

/-- Invariant inside a container: total nesting at least one. -/
def depthP (st : ScanSt) (_ : Char) : Prop := 1 ≤ st.brace_count + st.bracket_count

/-- Invariant inside a string body: counters zero, inside the string, and
escape only before a legal escape character. -/
def strP (st : ScanSt) (c : Char) : Prop :=
  (st.brace_count = 0 ∧ st.bracket_count = 0 ∧ st.in_string = true) ∧
  (st.escape_next = true → escSet c = true)

/-- A balanced fragment: scanning it from clean ends clean, and the
`pieceP` invariant holds all along. -/
structure PieceOk (cs : List Char) : Prop where
  neutral : scan00 cs = cleanSt
  trace : traceOk pieceP cleanSt cs

theorem PieceOk_nil : PieceOk [] := ⟨rfl, trivial⟩

theorem PieceOk.append {a b : List Char} (ha : PieceOk a) (hb : PieceOk b) :
    PieceOk (a ++ b) := by
  constructor
  · show scanChars cleanSt (a ++ b) = cleanSt
    rw [scanChars_append, show scanChars cleanSt a = cleanSt from ha.neutral]
    exact hb.neutral
  · refine (traceOk_append pieceP a cleanSt b).mpr ⟨ha.trace, ?_⟩
    rw [show scanChars cleanSt a = cleanSt from ha.neutral]
    exact hb.trace

theorem pieceP_clean (c : Char) : pieceP cleanSt c :=
  ⟨⟨le_refl 0, le_refl 0⟩, by intro h; exact absurd h (by decide)⟩

theorem traceOk_plain {cs : List Char} (h : ∀ c ∈ cs, plainCh c = true) :
    traceOk pieceP cleanSt cs := by
  induction cs with
  | nil => trivial
  | cons c cs ihc =>
    refine ⟨pieceP_clean c, ?_⟩
    have he : scanChar cleanSt c = cleanSt :=
      scanChar_plain (h c (List.mem_cons_self c cs)) 0 0 false
    rw [he]
    exact ihc fun x hx => h x (List.mem_cons_of_mem c hx)

theorem PieceOk_plain {cs : List Char} (h : ∀ c ∈ cs, plainCh c = true) :
    PieceOk cs :=
  ⟨scanChars_plain h 0 0 false, traceOk_plain h⟩

/-- Wrapping a balanced fragment in a matching brace or bracket pair gives
a balanced fragment, and the nesting depth stays at least one strictly
inside the pair. -/
theorem PieceOk.container {inner : List Char} (h : PieceOk inner)
    {op cl : Char} {ob kb : Int}
    (hop : scanChar cleanSt op = ⟨ob, kb, false, false⟩)
    (hb : 0 ≤ ob) (hk : 0 ≤ kb) (hsum : ob + kb = 1)
    (hcl : scanChar ⟨ob, kb, false, false⟩ cl = cleanSt) :
    PieceOk (op :: inner ++ [cl]) ∧
    traceOk depthP (scanChar cleanSt op) (inner ++ [cl]) := by
  have hinner : scanChars ⟨ob, kb, false, false⟩ inner = ⟨ob, kb, false, false⟩ := by
    rw [scanChars_clean_shift, show scan00 inner = cleanSt from h.neutral]
    simp [cleanSt]
  have hmono : ∀ (s : ScanSt) (c : Char), pieceP s c →
      pieceP ⟨ob + s.brace_count, kb + s.bracket_count, s.in_string, s.escape_next⟩ c := by
    intro s c hp
    refine ⟨⟨?_, ?_⟩, hp.2⟩
    · show 0 ≤ ob + s.brace_count
      have := hp.1.1; omega
    · show 0 ≤ kb + s.bracket_count
      have := hp.1.2; omega
  have htrace : traceOk pieceP ⟨ob, kb, false, false⟩ inner := by
    have h2 := traceOk_shift ob kb hmono inner cleanSt h.trace
    simpa [cleanSt] using h2
  constructor
  · constructor
    · show scanChars cleanSt (op :: (inner ++ [cl])) = cleanSt
      rw [scanChars_cons, hop, scanChars_append, hinner]
      exact hcl
    · refine ⟨pieceP_clean op, ?_⟩
      rw [hop]
      refine (traceOk_append pieceP inner _ [cl]).mpr ⟨htrace, ?_⟩
      rw [hinner]
      exact ⟨⟨⟨hb, hk⟩, by simp⟩, trivial⟩
  · rw [hop]
    have hdmono : ∀ (s : ScanSt) (c : Char), pieceP s c →
        depthP ⟨ob + s.brace_count, kb + s.bracket_count, s.in_string, s.escape_next⟩ c := by
      intro s c hp
      show 1 ≤ ob + s.brace_count + (kb + s.bracket_count)
      have h1 := hp.1.1
      have h2 := hp.1.2
      omega
    refine (traceOk_append depthP inner _ [cl]).mpr ⟨?_, ?_⟩
    · have h2 := traceOk_shift ob kb hdmono inner cleanSt h.trace
      simpa [cleanSt] using h2
    · rw [hinner]
      refine ⟨?_, trivial⟩
      show 1 ≤ ob + kb
      omega

/-! ## The string-literal lemma -/

/-- Invariants of a string body `d` (everything after the opening quote,
including the closing quote): scanning it from the in-string state ends
clean; all along, counters are zero, the scanner is in-string, and the
escape flag only precedes a legal escape character; and it contains no
newline (strict mode rejects raw control characters). -/
structure StrBodyOk (d : List Char) : Prop where
  ends : scanChars ⟨0, 0, true, false⟩ d = cleanSt
  trace : traceOk strP ⟨0, 0, true, false⟩ d
  noNl : '\n' ∉ d

theorem scanChar_escaped (c : Char) :
    scanChar ⟨0, 0, true, true⟩ c = ⟨0, 0, true, false⟩ := by
  simp [scanChar]

theorem scanChar_instr {c : Char} (h1 : ¬c = '\\') (h2 : ¬c = '"') :
    scanChar ⟨0, 0, true, false⟩ c = ⟨0, 0, true, false⟩ := by
  simp [scanChar, h1, h2]

theorem strP_mid (c : Char) : strP ⟨0, 0, true, false⟩ c :=
  ⟨⟨rfl, rfl, rfl⟩, by simp⟩

theorem hexDig_ne {c : Char} (h : isHexDig c = true) :
    ¬c = '\\' ∧ ¬c = '"' ∧ ¬c = '\n' := by
  refine ⟨?_, ?_, ?_⟩ <;> (intro hc; subst hc; simp [isHexDig, isDig] at h)

theorem pStr_ok (cs : List Char) : ∀ out rest, pStr cs = some (out, rest) →
    ∃ d, cs = d ++ rest ∧ StrBodyOk d := by
  induction cs using pStr.induct with
  | case1 =>
    intro out rest h
    rw [show pStr ([] : List Char) = none from rfl] at h
    exact Option.noConfusion h
  | case2 cs2 =>
    intro out rest h
    rw [show pStr ('"' :: cs2) = some ([], cs2) from by
      rw [pStr.eq_def]; simp] at h
    simp only [Option.some.injEq, Prod.mk.injEq] at h
    refine ⟨['"'], by rw [← h.2]; rfl, ?_⟩
    exact ⟨by decide, ⟨strP_mid '"', trivial⟩, by decide⟩
  | case3 hne =>
    intro out rest h
    rw [show pStr ['\\'] = none from by rw [pStr.eq_def]; simp] at h
    exact Option.noConfusion h
  | case4 h1 h2 h3 h4 cs3 hhex out0 rest0 hsome hne ih =>
    intro out rest h
    rw [show pStr ('\\' :: 'u' :: h1 :: h2 :: h3 :: h4 :: cs3) =
        some ((Char.ofNat ((((hexVal h1 * 16 + hexVal h2) * 16 + hexVal h3) * 16
          + hexVal h4)) :: out0), rest0) from by
      rw [pStr.eq_def]; simp [hhex, hsome]] at h
    simp only [Option.some.injEq, Prod.mk.injEq] at h
    obtain ⟨d', heq, hok⟩ := ih out0 rest0 hsome
    obtain ⟨ha1, ha2, ha3⟩ := hexDig_ne (by
      have := hhex
      simp only [Bool.and_eq_true] at this
      exact this.1.1.1)
    obtain ⟨hb1, hb2, hb3⟩ := hexDig_ne (by
      have := hhex
      simp only [Bool.and_eq_true] at this
      exact this.1.1.2)
    obtain ⟨hc1, hc2, hc3⟩ := hexDig_ne (by
      have := hhex
      simp only [Bool.and_eq_true] at this
      exact this.1.2)
    obtain ⟨hd1, hd2, hd3⟩ := hexDig_ne (by
      have := hhex
      simp only [Bool.and_eq_true] at this
      exact this.2)
    refine ⟨'\\' :: 'u' :: h1 :: h2 :: h3 :: h4 :: d', by rw [← h.2, heq]; rfl, ?_⟩
    constructor
    · show scanChars _ ('\\' :: 'u' :: h1 :: h2 :: h3 :: h4 :: d') = cleanSt
      rw [scanChars_cons, show scanChar ⟨0, 0, true, false⟩ '\\' = ⟨0, 0, true, true⟩
          from by decide,
        scanChars_cons, scanChar_escaped,
        scanChars_cons, scanChar_instr ha1 ha2,
        scanChars_cons, scanChar_instr hb1 hb2,
        scanChars_cons, scanChar_instr hc1 hc2,
        scanChars_cons, scanChar_instr hd1 hd2]
      exact hok.ends
    · refine ⟨⟨⟨rfl, rfl, rfl⟩, by simp⟩, ?_⟩
      rw [show scanChar ⟨0, 0, true, false⟩ '\\' = ⟨0, 0, true, true⟩ from by decide]
      refine ⟨⟨⟨rfl, rfl, rfl⟩, fun _ => by decide⟩, ?_⟩
      rw [scanChar_escaped]
      refine ⟨strP_mid h1, ?_⟩
      rw [scanChar_instr ha1 ha2]
      refine ⟨strP_mid h2, ?_⟩
      rw [scanChar_instr hb1 hb2]
      refine ⟨strP_mid h3, ?_⟩
      rw [scanChar_instr hc1 hc2]
      refine ⟨strP_mid h4, ?_⟩
      rw [scanChar_instr hd1 hd2]
      exact hok.trace
    · intro hmem
      simp only [List.mem_cons] at hmem
      rcases hmem with h|h|h|h|h|h|h
      · exact absurd h.symm (by decide)
      · exact absurd h.symm (by decide)
      · exact ha3 h.symm
      · exact hb3 h.symm
      · exact hc3 h.symm
      · exact hd3 h.symm
      · exact hok.noNl h
  | case5 h1 h2 h3 h4 cs3 hhex hnone hne ih =>
    intro out rest h
    rw [pStr.eq_def] at h
    simp [hhex, hnone] at h
  | case6 h1 h2 h3 h4 cs3 hhex hne =>
    intro out rest h
    rw [pStr.eq_def] at h
    simp [hhex] at h
  | case7 cs2 hshape hne =>
    intro out rest h
    rw [pStr.eq_def] at h
    cases cs2 with
    | nil => simp at h
    | cons a t1 =>
      cases t1 with
      | nil => simp at h
      | cons b t2 =>
        cases t2 with
        | nil => simp at h
        | cons c t3 =>
          cases t3 with
          | nil => simp at h
          | cons d t4 => exact absurd rfl (by intro hc; exact hshape a b c d t4 hc)
  | case8 e cs2 hnu hset out0 rest0 hsome hne ih =>
    intro out rest h
    rw [show pStr ('\\' :: e :: cs2) = some (escDecode e :: out0, rest0) from by
      rw [pStr.eq_def]; simp [hnu, hset, hsome]] at h
    simp only [Option.some.injEq, Prod.mk.injEq] at h
    obtain ⟨d', heq, hok⟩ := ih out0 rest0 hsome
    have hesc : escSet e = true := by
      simp only [Bool.or_eq_true, decide_eq_true_eq] at hset
      simp only [escSet, Bool.or_eq_true, decide_eq_true_eq]
      tauto
    have henl : ¬e = '\n' := by
      simp only [Bool.or_eq_true, decide_eq_true_eq] at hset
      rcases hset with ((((((h'|h')|h')|h')|h')|h')|h')|h' <;> subst h' <;> decide
    refine ⟨'\\' :: e :: d', by rw [← h.2, heq]; rfl, ?_⟩
    constructor
    · show scanChars _ ('\\' :: e :: d') = cleanSt
      rw [scanChars_cons, show scanChar ⟨0, 0, true, false⟩ '\\' = ⟨0, 0, true, true⟩
          from by decide,
        scanChars_cons, scanChar_escaped]
      exact hok.ends
    · refine ⟨⟨⟨rfl, rfl, rfl⟩, by simp⟩, ?_⟩
      rw [show scanChar ⟨0, 0, true, false⟩ '\\' = ⟨0, 0, true, true⟩ from by decide]
      refine ⟨⟨⟨rfl, rfl, rfl⟩, fun _ => hesc⟩, ?_⟩
      rw [scanChar_escaped]
      exact hok.trace
    · intro hmem
      simp only [List.mem_cons] at hmem
      rcases hmem with h|h|h
      · exact absurd h.symm (by decide)
      · exact henl h.symm
      · exact hok.noNl h
  | case9 e cs2 hnu hset hnone hne ih =>
    intro out rest h
    rw [pStr.eq_def] at h
    simp [hnu, hset, hnone] at h
  | case10 e cs2 hnu hset hne =>
    intro out rest h
    rw [pStr.eq_def] at h
    simp [hnu, hset] at h
  | case11 e cs2 h1 h2 hlt =>
    intro out rest h
    rw [pStr.eq_def] at h
    simp [h1, h2, hlt] at h
  | case12 e cs2 h1 h2 hge out0 rest0 hsome ih =>
    intro out rest h
    rw [show pStr (e :: cs2) = some (e :: out0, rest0) from by
      rw [pStr.eq_def]; simp [h1, h2, hge, hsome]] at h
    simp only [Option.some.injEq, Prod.mk.injEq] at h
    obtain ⟨d', heq, hok⟩ := ih out0 rest0 hsome
    have henl : ¬e = '\n' := by
      intro hc
      subst hc
      exact hge (by decide)
    refine ⟨e :: d', by rw [← h.2, heq]; rfl, ?_⟩
    constructor
    · show scanChars _ (e :: d') = cleanSt
      rw [scanChars_cons, scanChar_instr h2 h1]
      exact hok.ends
    · refine ⟨strP_mid e, ?_⟩
      rw [scanChar_instr h2 h1]
      exact hok.trace
    · intro hmem
      simp only [List.mem_cons] at hmem
      rcases hmem with h|h
      · exact henl h.symm
      · exact hok.noNl h
  | case13 e cs2 h1 h2 hge hnone ih =>
    intro out rest h
    rw [pStr.eq_def] at h
    simp [h1, h2, hge, hnone] at h

/-! ## Keyword and number lexeme lemmas -/

theorem stripLit_eq : ∀ (ks cs rest : List Char), stripLit ks cs = some rest →
    cs = ks ++ rest := by
  intro ks
  induction ks with
  | nil =>
    intro cs rest h
    simp only [stripLit, Option.some.injEq] at h
    rw [h]
    rfl
  | cons k ks ih =>
    intro cs rest h
    cases cs with
    | nil => simp [stripLit] at h
    | cons c cs2 =>
      simp only [stripLit] at h
      by_cases hc : c = k
      · rw [if_pos hc] at h
        rw [hc, List.cons_append, ← ih cs2 rest h]
      · rw [if_neg hc] at h
        exact Option.noConfusion h

/-- The character classes a number lexeme draws from. -/
def numCh (c : Char) : Bool :=
  isDig c || c = '-' || c = '+' || c = '.' || c = 'e' || c = 'E'

theorem numCh_facts {c : Char} (h : numCh c = true) :
    plainCh c = true ∧ ¬c = '\n' := by
  constructor
  · simp only [plainCh, Bool.not_eq_true', Bool.or_eq_false_iff, decide_eq_false_iff_not]
    refine ⟨⟨⟨⟨⟨?_, ?_⟩, ?_⟩, ?_⟩, ?_⟩, ?_⟩ <;>
      (intro hc; subst hc; simp [numCh, isDig] at h)
  · intro hc; subst hc; simp [numCh, isDig] at h

theorem isDig_numCh {c : Char} (h : isDig c = true) : numCh c = true := by
  simp [numCh, h]

theorem pIntPart_ok : ∀ (cs ip r : List Char), pIntPart cs = some (ip, r) →
    cs = ip ++ r ∧ (∀ x ∈ ip, isDig x = true) ∧ ip ≠ [] := by
  intro cs ip r h
  cases cs with
  | nil => simp [pIntPart] at h
  | cons c cs2 =>
    simp only [pIntPart] at h
    by_cases h0 : c = '0'
    · rw [if_pos h0] at h
      simp only [Option.some.injEq, Prod.mk.injEq] at h
      refine ⟨by rw [← h.1, ← h.2]; rfl, ?_, by rw [← h.1]; simp⟩
      intro x hx
      rw [← h.1] at hx
      simp only [List.mem_singleton] at hx
      rw [hx, h0]
      decide
    · rw [if_neg h0] at h
      by_cases hd : isDig c = true
      · rw [if_pos hd] at h
        simp only [Option.some.injEq, Prod.mk.injEq] at h
        refine ⟨?_, ?_, by rw [← h.1]; simp⟩
        · rw [← h.1, ← h.2, List.cons_append, List.takeWhile_append_dropWhile]
        · intro x hx
          rw [← h.1] at hx
          simp only [List.mem_cons] at hx
          rcases hx with hx | hx
          · rw [hx]; exact hd
          · exact List.mem_takeWhile_imp hx
      · rw [if_neg hd] at h
        exact Option.noConfusion h

theorem pFracPart_ok (cs : List Char) :
    cs = (pFracPart cs).1 ++ (pFracPart cs).2 ∧
    ∀ x ∈ (pFracPart cs).1, numCh x = true := by
  cases cs with
  | nil => exact ⟨rfl, by intro x hx; simp [pFracPart] at hx⟩
  | cons c cs2 =>
    simp only [pFracPart]
    by_cases hc : c = '.'
    · rw [if_pos hc]
      by_cases htw : cs2.takeWhile isDig = []
      · rw [if_pos htw]
        exact ⟨rfl, by intro x hx; simp at hx⟩
      · rw [if_neg htw]
        constructor
        · show c :: cs2 = ('.' :: cs2.takeWhile isDig) ++ cs2.dropWhile isDig
          rw [hc, List.cons_append, List.takeWhile_append_dropWhile]
        · intro x hx
          rcases List.mem_cons.mp hx with hx | hx
          · rw [hx]; decide
          · exact isDig_numCh (List.mem_takeWhile_imp hx)
    · rw [if_neg hc]
      exact ⟨rfl, by intro x hx; simp at hx⟩

theorem pExpTail_ok (c : Char) (hc : numCh c = true) (rest : List Char) :
    c :: rest = (pExpTail c rest).1 ++ (pExpTail c rest).2 ∧
    ∀ x ∈ (pExpTail c rest).1, numCh x = true := by
  cases rest with
  | nil => exact ⟨rfl, by intro x hx; simp [pExpTail] at hx⟩
  | cons s r2 =>
    simp only [pExpTail]
    by_cases hs : (s = '+' || s = '-') = true
    · rw [if_pos hs]
      by_cases htw : r2.takeWhile isDig = []
      · rw [if_pos htw]
        exact ⟨rfl, by intro x hx; simp at hx⟩
      · rw [if_neg htw]
        constructor
        · show c :: s :: r2 = (c :: s :: r2.takeWhile isDig) ++ r2.dropWhile isDig
          rw [List.cons_append, List.cons_append, List.takeWhile_append_dropWhile]
        · intro x hx
          rcases List.mem_cons.mp hx with hx | hx
          · rw [hx]; exact hc
          rcases List.mem_cons.mp hx with hx | hx
          · rw [hx]
            have hs' := hs
            simp only [Bool.or_eq_true, decide_eq_true_eq] at hs'
            rcases hs' with h' | h' <;> (rw [h']; decide)
          · exact isDig_numCh (List.mem_takeWhile_imp hx)
    · rw [if_neg hs]
      by_cases htw : (s :: r2).takeWhile isDig = []
      · rw [if_pos htw]
        exact ⟨rfl, by intro x hx; simp at hx⟩
      · rw [if_neg htw]
        constructor
        · show c :: s :: r2 = (c :: (s :: r2).takeWhile isDig) ++ (s :: r2).dropWhile isDig
          rw [List.cons_append, List.takeWhile_append_dropWhile]
        · intro x hx
          rcases List.mem_cons.mp hx with hx | hx
          · rw [hx]; exact hc
          · exact isDig_numCh (List.mem_takeWhile_imp hx)

theorem pExpPart_ok (cs : List Char) :
    cs = (pExpPart cs).1 ++ (pExpPart cs).2 ∧
    ∀ x ∈ (pExpPart cs).1, numCh x = true := by
  cases cs with
  | nil => exact ⟨rfl, by intro x hx; simp [pExpPart] at hx⟩
  | cons c rest =>
    simp only [pExpPart]
    by_cases he : (c = 'e' || c = 'E') = true
    · rw [if_pos he]
      refine pExpTail_ok c ?_ rest
      have he' := he
      simp only [Bool.or_eq_true, decide_eq_true_eq] at he'
      rcases he' with h' | h' <;> (rw [h']; decide)
    · rw [if_neg he]
      exact ⟨rfl, by intro x hx; simp at hx⟩

theorem pNum_ok : ∀ (cs lex rest : List Char), pNum cs = some (lex, rest) →
    cs = lex ++ rest ∧ (∀ x ∈ lex, numCh x = true) ∧ lex ≠ [] := by
  intro cs lex rest h
  rw [pNum.eq_def] at h
  split at h
  · next cs2 =>
    cases hip : pIntPart cs2 with
    | none => rw [hip] at h; exact Option.noConfusion h
    | some p =>
      obtain ⟨ip, r⟩ := p
      rw [hip] at h
      simp only [Option.some.injEq, Prod.mk.injEq] at h
      obtain ⟨hi1, hi2, hi3⟩ := pIntPart_ok cs2 ip r hip
      obtain ⟨hf1, hf2⟩ := pFracPart_ok r
      obtain ⟨he1, he2⟩ := pExpPart_ok (pFracPart r).2
      refine ⟨?_, ?_, by rw [← h.1]; simp⟩
      · rw [← h.1, ← h.2]
        show '-' :: cs2 = ('-' :: (ip ++ (pFracPart r).1 ++ (pExpPart (pFracPart r).2).1))
          ++ (pExpPart (pFracPart r).2).2
        rw [List.cons_append]
        congr 1
        rw [hi1, List.append_assoc, List.append_assoc]
        congr 1
        conv_lhs => rw [hf1, he1]
      · intro x hx
        rw [← h.1] at hx
        simp only [List.mem_cons, List.mem_append] at hx
        rcases hx with hx | (hx | hx) | hx
        · rw [hx]; decide
        · exact isDig_numCh (hi2 x hx)
        · exact hf2 x hx
        · exact he2 x hx
  · next hno =>
    cases hip : pIntPart cs with
    | none => rw [hip] at h; exact Option.noConfusion h
    | some p =>
      obtain ⟨ip, r⟩ := p
      rw [hip] at h
      simp only [Option.some.injEq, Prod.mk.injEq] at h
      obtain ⟨hi1, hi2, hi3⟩ := pIntPart_ok cs ip r hip
      obtain ⟨hf1, hf2⟩ := pFracPart_ok r
      obtain ⟨he1, he2⟩ := pExpPart_ok (pFracPart r).2
      refine ⟨?_, ?_, ?_⟩
      · rw [← h.1, ← h.2]
        rw [hi1, List.append_assoc, List.append_assoc]
        congr 1
        conv_lhs => rw [hf1, he1]
      case refine_3 =>
        rw [← h.1]
        intro hc
        rw [List.append_assoc, List.append_eq_nil] at hc
        exact hi3 hc.1
      · intro x hx
        rw [← h.1] at hx
        simp only [List.mem_append] at hx
        rcases hx with (hx | hx) | hx
        · exact isDig_numCh (hi2 x hx)
        · exact hf2 x hx
        · exact he2 x hx

/-! ## The value invariant -/

/-- Invariants of the consumed text of one parsed JSON value: it is a
balanced fragment; it is non-empty; if it opens with a brace or bracket the
nesting depth stays at least one strictly inside; and otherwise (a scalar)
it contains no newline. -/
structure ValOk (cs : List Char) : Prop where
  piece : PieceOk cs
  nonempty : cs ≠ []
  pos : ∀ op t, cs = op :: t → (op = '\x7b' ∨ op = '[') →
    traceOk depthP (scanChar cleanSt op) t
  scalarNoNl : ∀ op t, cs = op :: t → ¬(op = '\x7b' ∨ op = '[') → '\n' ∉ cs

theorem plain_noBrace {c : Char} (h : plainCh c = true) :
    ¬(c = '\x7b' ∨ c = '[') := by
  simp only [plainCh, Bool.not_eq_true', Bool.or_eq_false_iff,
    decide_eq_false_iff_not] at h
  rintro (rfl | rfl)
  · exact h.1.1.1.2 rfl
  · exact h.1.2 rfl

theorem ValOk_scalar {cs : List Char} (hne : cs ≠ [])
    (hpl : ∀ c ∈ cs, plainCh c = true) (hnl : '\n' ∉ cs) : ValOk cs := by
  refine ⟨PieceOk_plain hpl, hne, ?_, ?_⟩
  · intro op t heq hop
    have hm : op ∈ cs := heq ▸ List.mem_cons_self op t
    exact absurd hop (plain_noBrace (hpl op hm))
  · intro _ _ _ _
    exact hnl

theorem ValOk_str {d : List Char} (h : StrBodyOk d) : ValOk ('"' :: d) := by
  refine ⟨?_, by simp, ?_, ?_⟩
  · constructor
    · show scanChars cleanSt ('"' :: d) = cleanSt
      rw [scanChars_cons, show scanChar cleanSt '"' = ⟨0, 0, true, false⟩ from by decide]
      exact h.ends
    · refine ⟨pieceP_clean '"', ?_⟩
      rw [show scanChar cleanSt '"' = ⟨0, 0, true, false⟩ from by decide]
      refine traceOk_mono ?_ d ⟨0, 0, true, false⟩ h.trace
      intro s c hs
      exact ⟨⟨le_of_eq hs.1.1.symm, le_of_eq hs.1.2.1.symm⟩, hs.2⟩
  · intro op t heq hop
    injection heq with h1 h2
    rcases hop with h' | h' <;> (rw [← h1] at h'; exact absurd h' (by decide))
  · intro _ _ _ _ hm
    rcases List.mem_cons.mp hm with hx | hx
    · exact absurd hx (by decide)
    · exact h.noNl hx

theorem ValOk_container {inner : List Char} (hin : PieceOk inner) {op cl : Char}
    {ob kb : Int}
    (hop : scanChar cleanSt op = ⟨ob, kb, false, false⟩) (hb : 0 ≤ ob) (hk : 0 ≤ kb)
    (hsum : ob + kb = 1) (hcl : scanChar ⟨ob, kb, false, false⟩ cl = cleanSt)
    (hopc : op = '\x7b' ∨ op = '[') :
    ValOk (op :: inner ++ [cl]) := by
  obtain ⟨hpiece, hpos⟩ := hin.container hop hb hk hsum hcl
  refine ⟨hpiece, by simp, ?_, ?_⟩
  · intro op' t heq hop'
    injection heq with h1 h2
    rw [← h1, ← h2]
    exact hpos
  · intro op' t heq hcon
    injection heq with h1 h2
    rw [← h1] at hcon
    exact absurd hopc hcon

theorem ws_plain {cs : List Char} : ∀ x ∈ cs.takeWhile isJsonWs, plainCh x = true := by
  intro x hx
  have h := List.mem_takeWhile_imp hx
  simp only [isJsonWs, Bool.or_eq_true, decide_eq_true_eq] at h
  rcases h with ((h | h) | h) | h <;> (subst h; decide)

theorem skipWs_split (cs : List Char) :
    cs = cs.takeWhile isJsonWs ++ skipWsL cs :=
  (List.takeWhile_append_dropWhile (p := isJsonWs) (l := cs)).symm

/-! ## The main parser/scanner correspondence -/

/-- The consumed text of every parse: a parsed value's text satisfies
`ValOk`; a parsed element-list or member-list consumes balanced text up to
and including its closing bracket or brace. -/
theorem parse_ok : ∀ f : Nat,
    (∀ cs v rest, pValue f cs = some (v, rest) → ∃ c, cs = c ++ rest ∧ ValOk c) ∧
    (∀ cs vs rest, pElems f cs = some (vs, rest) →
      ∃ b, cs = b ++ ']' :: rest ∧ PieceOk b) ∧
    (∀ cs ms rest, pMembers f cs = some (ms, rest) →
      ∃ b, cs = b ++ '\x7d' :: rest ∧ PieceOk b) := by
  intro f
  induction f with
  | zero =>
    refine ⟨?_, ?_, ?_⟩ <;> intro cs a rest h <;> exact Option.noConfusion h
  | succ f ih =>
    obtain ⟨ihV, ihE, ihM⟩ := ih
    refine ⟨?_, ?_, ?_⟩
    · -- pValue
      intro cs v rest h
      cases cs with
      | nil =>
        rw [show pValue (Nat.succ f) [] = none from by rw [pValue.eq_def]] at h
        exact Option.noConfusion h
      | cons c0 cs2 =>
        by_cases hq : c0 = '"'
        · subst hq
          cases hps : pStr cs2 with
          | none =>
            rw [show pValue (Nat.succ f) ('"' :: cs2) = none from by
              rw [pValue.eq_def]; simp [hps]] at h
            exact Option.noConfusion h
          | some pr =>
            obtain ⟨out, rest2⟩ := pr
            rw [show pValue (Nat.succ f) ('"' :: cs2) =
                some (Json.str (String.mk out), rest2) from by
              rw [pValue.eq_def]; simp [hps]] at h
            simp only [Option.some.injEq, Prod.mk.injEq] at h
            obtain ⟨d, hd, hok⟩ := pStr_ok cs2 out rest2 hps
            exact ⟨'"' :: d, by rw [hd, ← h.2]; rfl, ValOk_str hok⟩
        · by_cases hbr : c0 = '\x7b'
          · subst hbr
            cases hr : skipWsL cs2 with
            | nil =>
              rw [show pValue (Nat.succ f) ('\x7b' :: cs2) = none from by
                rw [pValue.eq_def]; simp [hr]] at h
              exact Option.noConfusion h
            | cons r0 rt =>
              by_cases hcl : r0 = '\x7d'
              · subst hcl
                rw [show pValue (Nat.succ f) ('\x7b' :: cs2) =
                    some (Json.obj [], rt) from by
                  rw [pValue.eq_def]; simp [hr]] at h
                simp only [Option.some.injEq, Prod.mk.injEq] at h
                refine ⟨'\x7b' :: cs2.takeWhile isJsonWs ++ ['\x7d'], ?_, ?_⟩
                · rw [← h.2]
                  conv_lhs => rw [skipWs_split cs2, hr]
                  simp [List.append_assoc]
                · exact @ValOk_container _ (PieceOk_plain ws_plain) '\x7b' '\x7d' 1 0
                    (by decide) (by decide) (by decide) (by decide) (by decide)
                    (Or.inl rfl)
              · cases hm : pMembers f (r0 :: rt) with
                | none =>
                  rw [show pValue (Nat.succ f) ('\x7b' :: cs2) = none from by
                    rw [pValue.eq_def]; simp [hr, hcl, hm]] at h
                  exact Option.noConfusion h
                | some pm =>
                  obtain ⟨ms, rest3⟩ := pm
                  rw [show pValue (Nat.succ f) ('\x7b' :: cs2) =
                      some (Json.obj ms, rest3) from by
                    rw [pValue.eq_def]; simp [hr, hcl, hm]] at h
                  simp only [Option.some.injEq, Prod.mk.injEq] at h
                  obtain ⟨b, hbeq, hbok⟩ := ihM (r0 :: rt) ms rest3 hm
                  refine ⟨'\x7b' :: (cs2.takeWhile isJsonWs ++ b) ++ ['\x7d'], ?_, ?_⟩
                  · rw [← h.2]
                    conv_lhs => rw [skipWs_split cs2, hr, hbeq]
                    simp [List.append_assoc]
                  · exact @ValOk_container _ ((PieceOk_plain ws_plain).append hbok)
                      '\x7b' '\x7d' 1 0 (by decide) (by decide) (by decide) (by decide)
                      (by decide) (Or.inl rfl)
          · by_cases hbk : c0 = '['
            · subst hbk
              cases hr : skipWsL cs2 with
              | nil =>
                rw [show pValue (Nat.succ f) ('[' :: cs2) = none from by
                  rw [pValue.eq_def]; simp [hr]] at h
                exact Option.noConfusion h
              | cons r0 rt =>
                by_cases hcl : r0 = ']'
                · subst hcl
                  rw [show pValue (Nat.succ f) ('[' :: cs2) =
                      some (Json.arr [], rt) from by
                    rw [pValue.eq_def]; simp [hr]] at h
                  simp only [Option.some.injEq, Prod.mk.injEq] at h
                  refine ⟨'[' :: cs2.takeWhile isJsonWs ++ [']'], ?_, ?_⟩
                  · rw [← h.2]
                    conv_lhs => rw [skipWs_split cs2, hr]
                    simp [List.append_assoc]
                  · exact @ValOk_container _ (PieceOk_plain ws_plain) '[' ']' 0 1
                      (by decide) (by decide) (by decide) (by decide) (by decide)
                      (Or.inr rfl)
                · cases hm : pElems f (r0 :: rt) with
                  | none =>
                    rw [show pValue (Nat.succ f) ('[' :: cs2) = none from by
                      rw [pValue.eq_def]; simp [hr, hcl, hm]] at h
                    exact Option.noConfusion h
                  | some pm =>
                    obtain ⟨vs, rest3⟩ := pm
                    rw [show pValue (Nat.succ f) ('[' :: cs2) =
                        some (Json.arr vs, rest3) from by
                      rw [pValue.eq_def]; simp [hr, hcl, hm]] at h
                    simp only [Option.some.injEq, Prod.mk.injEq] at h
                    obtain ⟨b, hbeq, hbok⟩ := ihE (r0 :: rt) vs rest3 hm
                    refine ⟨'[' :: (cs2.takeWhile isJsonWs ++ b) ++ [']'], ?_, ?_⟩
                    · rw [← h.2]
                      conv_lhs => rw [skipWs_split cs2, hr, hbeq]
                      simp [List.append_assoc]
                    · exact @ValOk_container _ ((PieceOk_plain ws_plain).append hbok)
                        '[' ']' 0 1 (by decide) (by decide) (by decide) (by decide)
                        (by decide) (Or.inr rfl)
            · -- scalar cascade
              cases hnull : stripLit ['n', 'u', 'l', 'l'] (c0 :: cs2) with
              | some restn =>
                rw [show pValue (Nat.succ f) (c0 :: cs2) = some (Json.null, restn) from by
                  rw [pValue.eq_def]; simp [hq, hbr, hbk, hnull]] at h
                simp only [Option.some.injEq, Prod.mk.injEq] at h
                refine ⟨['n', 'u', 'l', 'l'], ?_, ?_⟩
                · rw [← h.2]; exact stripLit_eq _ _ _ hnull
                · exact ValOk_scalar (by decide) (by decide) (by decide)
              | none =>
              cases htrue : stripLit ['t', 'r', 'u', 'e'] (c0 :: cs2) with
              | some restn =>
                rw [show pValue (Nat.succ f) (c0 :: cs2) =
                    some (Json.bool true, restn) from by
                  rw [pValue.eq_def]; simp [hq, hbr, hbk, hnull, htrue]] at h
                simp only [Option.some.injEq, Prod.mk.injEq] at h
                refine ⟨['t', 'r', 'u', 'e'], ?_, ?_⟩
                · rw [← h.2]; exact stripLit_eq _ _ _ htrue
                · exact ValOk_scalar (by decide) (by decide) (by decide)
              | none =>
              cases hfalse : stripLit ['f', 'a', 'l', 's', 'e'] (c0 :: cs2) with
              | some restn =>
                rw [show pValue (Nat.succ f) (c0 :: cs2) =
                    some (Json.bool false, restn) from by
                  rw [pValue.eq_def]; simp [hq, hbr, hbk, hnull, htrue, hfalse]] at h
                simp only [Option.some.injEq, Prod.mk.injEq] at h
                refine ⟨['f', 'a', 'l', 's', 'e'], ?_, ?_⟩
                · rw [← h.2]; exact stripLit_eq _ _ _ hfalse
                · exact ValOk_scalar (by decide) (by decide) (by decide)
              | none =>
              cases hnum : pNum (c0 :: cs2) with
              | some pr =>
                obtain ⟨lex, restn⟩ := pr
                rw [show pValue (Nat.succ f) (c0 :: cs2) =
                    some (Json.num (String.mk lex), restn) from by
                  rw [pValue.eq_def]; simp [hq, hbr, hbk, hnull, htrue, hfalse, hnum]] at h
                simp only [Option.some.injEq, Prod.mk.injEq] at h
                obtain ⟨hn1, hn2, hn3⟩ := pNum_ok (c0 :: cs2) lex restn hnum
                refine ⟨lex, by rw [← h.2]; exact hn1, ?_⟩
                refine ValOk_scalar hn3 (fun x hx => (numCh_facts (hn2 x hx)).1) ?_
                intro hmem
                exact absurd rfl (numCh_facts (hn2 '\n' hmem)).2
              | none =>
              cases hnan : stripLit ['N', 'a', 'N'] (c0 :: cs2) with
              | some restn =>
                rw [show pValue (Nat.succ f) (c0 :: cs2) = some (Json.num "NaN", restn)
                    from by
                  rw [pValue.eq_def]
                  simp [hq, hbr, hbk, hnull, htrue, hfalse, hnum, hnan]] at h
                simp only [Option.some.injEq, Prod.mk.injEq] at h
                refine ⟨['N', 'a', 'N'], ?_, ?_⟩
                · rw [← h.2]; exact stripLit_eq _ _ _ hnan
                · exact ValOk_scalar (by decide) (by decide) (by decide)
              | none =>
              cases hinf : stripLit ['I', 'n', 'f', 'i', 'n', 'i', 't', 'y'] (c0 :: cs2) with
              | some restn =>
                rw [show pValue (Nat.succ f) (c0 :: cs2) =
                    some (Json.num "Infinity", restn) from by
                  rw [pValue.eq_def]
                  simp [hq, hbr, hbk, hnull, htrue, hfalse, hnum, hnan, hinf]] at h
                simp only [Option.some.injEq, Prod.mk.injEq] at h
                refine ⟨['I', 'n', 'f', 'i', 'n', 'i', 't', 'y'], ?_, ?_⟩
                · rw [← h.2]; exact stripLit_eq _ _ _ hinf
                · exact ValOk_scalar (by decide) (by decide) (by decide)
              | none =>
              cases hninf : stripLit ['-', 'I', 'n', 'f', 'i', 'n', 'i', 't', 'y']
                  (c0 :: cs2) with
              | some restn =>
                rw [show pValue (Nat.succ f) (c0 :: cs2) =
                    some (Json.num "-Infinity", restn) from by
                  rw [pValue.eq_def]
                  simp [hq, hbr, hbk, hnull, htrue, hfalse, hnum, hnan, hinf, hninf]] at h
                simp only [Option.some.injEq, Prod.mk.injEq] at h
                refine ⟨['-', 'I', 'n', 'f', 'i', 'n', 'i', 't', 'y'], ?_, ?_⟩
                · rw [← h.2]; exact stripLit_eq _ _ _ hninf
                · exact ValOk_scalar (by decide) (by decide) (by decide)
              | none =>
                rw [show pValue (Nat.succ f) (c0 :: cs2) = none from by
                  rw [pValue.eq_def]
                  simp [hq, hbr, hbk, hnull, htrue, hfalse, hnum, hnan, hinf, hninf]] at h
                exact Option.noConfusion h
    · -- pElems
      intro cs vs rest h
      cases hv : pValue f cs with
      | none =>
        rw [show pElems (Nat.succ f) cs = none from by
          rw [pElems.eq_def]; simp [hv]] at h
        exact Option.noConfusion h
      | some pr =>
        obtain ⟨v0, r1⟩ := pr
        obtain ⟨c, hceq, hcok⟩ := ihV cs v0 r1 hv
        cases hr : skipWsL r1 with
        | nil =>
          rw [show pElems (Nat.succ f) cs = none from by
            rw [pElems.eq_def]; simp [hv, hr]] at h
          exact Option.noConfusion h
        | cons r0 r2 =>
          by_cases hcl : r0 = ']'
          · subst hcl
            rw [show pElems (Nat.succ f) cs = some ([v0], r2) from by
              rw [pElems.eq_def]; simp [hv, hr]] at h
            simp only [Option.some.injEq, Prod.mk.injEq] at h
            refine ⟨c ++ r1.takeWhile isJsonWs, ?_, hcok.piece.append (PieceOk_plain ws_plain)⟩
            rw [← h.2]
            conv_lhs => rw [hceq, skipWs_split r1, hr]
            simp [List.append_assoc]
          · by_cases hcm : r0 = ','
            · subst hcm
              cases hm : pElems f (skipWsL r2) with
              | none =>
                rw [show pElems (Nat.succ f) cs = none from by
                  rw [pElems.eq_def]; simp [hv, hr, hm]] at h
                exact Option.noConfusion h
              | some pm =>
                obtain ⟨vs2, r3⟩ := pm
                rw [show pElems (Nat.succ f) cs = some (v0 :: vs2, r3) from by
                  rw [pElems.eq_def]; simp [hv, hr, hm]] at h
                simp only [Option.some.injEq, Prod.mk.injEq] at h
                obtain ⟨b2, hb2eq, hb2ok⟩ := ihE (skipWsL r2) vs2 r3 hm
                refine ⟨c ++ (r1.takeWhile isJsonWs ++ ([','] ++
                  (r2.takeWhile isJsonWs ++ b2))), ?_, ?_⟩
                · rw [← h.2]
                  conv_lhs => rw [hceq, skipWs_split r1, hr]
                  conv_lhs => rw [skipWs_split r2, hb2eq]
                  simp [List.append_assoc]
                · exact hcok.piece.append ((PieceOk_plain ws_plain).append
                    ((PieceOk_plain (by decide)).append
                      ((PieceOk_plain ws_plain).append hb2ok)))
            · rw [show pElems (Nat.succ f) cs = none from by
                rw [pElems.eq_def]; simp [hv, hr, hcl, hcm]] at h
              exact Option.noConfusion h
    · -- pMembers
      intro cs ms rest h
      cases cs with
      | nil =>
        rw [show pMembers (Nat.succ f) [] = none from by rw [pMembers.eq_def]] at h
        exact Option.noConfusion h
      | cons c0 cs2 =>
        by_cases hq : c0 = '"'
        · subst hq
          cases hps : pStr cs2 with
          | none =>
            rw [show pMembers (Nat.succ f) ('"' :: cs2) = none from by
              rw [pMembers.eq_def]; simp [hps]] at h
            exact Option.noConfusion h
          | some pr =>
            obtain ⟨k, r1⟩ := pr
            obtain ⟨d, hd, hdok⟩ := pStr_ok cs2 k r1 hps
            cases hq2 : skipWsL r1 with
            | nil =>
              rw [show pMembers (Nat.succ f) ('"' :: cs2) = none from by
                rw [pMembers.eq_def]; simp [hps, hq2]] at h
              exact Option.noConfusion h
            | cons q0 r2 =>
              by_cases hcolon : q0 = ':'
              · subst hcolon
                cases hv : pValue f (skipWsL r2) with
                | none =>
                  rw [show pMembers (Nat.succ f) ('"' :: cs2) = none from by
                    rw [pMembers.eq_def]; simp [hps, hq2, hv]] at h
                  exact Option.noConfusion h
                | some pv =>
                  obtain ⟨v0, r3⟩ := pv
                  obtain ⟨c, hceq, hcok⟩ := ihV (skipWsL r2) v0 r3 hv
                  cases hs : skipWsL r3 with
                  | nil =>
                    rw [show pMembers (Nat.succ f) ('"' :: cs2) = none from by
                      rw [pMembers.eq_def]; simp [hps, hq2, hv, hs]] at h
                    exact Option.noConfusion h
                  | cons s0 r4 =>
                    by_cases hbrc : s0 = '\x7d'
                    · subst hbrc
                      rw [show pMembers (Nat.succ f) ('"' :: cs2) =
                          some ([(String.mk k, v0)], r4) from by
                        rw [pMembers.eq_def]; simp [hps, hq2, hv, hs]] at h
                      simp only [Option.some.injEq, Prod.mk.injEq] at h
                      refine ⟨('"' :: d) ++ (r1.takeWhile isJsonWs ++ ([':'] ++
                        (r2.takeWhile isJsonWs ++ (c ++ r3.takeWhile isJsonWs)))), ?_, ?_⟩
                      · rw [← h.2]
                        conv_lhs => rw [hd, skipWs_split r1, hq2]
                        conv_lhs => rw [skipWs_split r2, hceq]
                        conv_lhs => rw [skipWs_split r3, hs]
                        simp [List.append_assoc]
                      · exact (ValOk_str hdok).piece.append
                          ((PieceOk_plain ws_plain).append
                            ((PieceOk_plain (by decide)).append
                              ((PieceOk_plain ws_plain).append
                                (hcok.piece.append (PieceOk_plain ws_plain)))))
                    · by_cases hcm : s0 = ','
                      · subst hcm
                        cases hm : pMembers f (skipWsL r4) with
                        | none =>
                          rw [show pMembers (Nat.succ f) ('"' :: cs2) = none from by
                            rw [pMembers.eq_def]; simp [hps, hq2, hv, hs, hm]] at h
                          exact Option.noConfusion h
                        | some pm =>
                          obtain ⟨ms2, r5⟩ := pm
                          rw [show pMembers (Nat.succ f) ('"' :: cs2) =
                              some ((String.mk k, v0) :: ms2, r5) from by
                            rw [pMembers.eq_def]; simp [hps, hq2, hv, hs, hm]] at h
                          simp only [Option.some.injEq, Prod.mk.injEq] at h
                          obtain ⟨b2, hb2eq, hb2ok⟩ := ihM (skipWsL r4) ms2 r5 hm
                          refine ⟨('"' :: d) ++ (r1.takeWhile isJsonWs ++ ([':'] ++
                            (r2.takeWhile isJsonWs ++ (c ++ (r3.takeWhile isJsonWs ++
                              ([','] ++ (r4.takeWhile isJsonWs ++ b2))))))), ?_, ?_⟩
                          · rw [← h.2]
                            conv_lhs => rw [hd, skipWs_split r1, hq2]
                            conv_lhs => rw [skipWs_split r2, hceq]
                            conv_lhs => rw [skipWs_split r3, hs]
                            conv_lhs => rw [skipWs_split r4, hb2eq]
                            simp [List.append_assoc]
                          · exact (ValOk_str hdok).piece.append
                              ((PieceOk_plain ws_plain).append
                                ((PieceOk_plain (by decide)).append
                                  ((PieceOk_plain ws_plain).append
                                    (hcok.piece.append
                                      ((PieceOk_plain ws_plain).append
                                        ((PieceOk_plain (by decide)).append
                                          ((PieceOk_plain ws_plain).append hb2ok)))))))
                      · rw [show pMembers (Nat.succ f) ('"' :: cs2) = none from by
                          rw [pMembers.eq_def]; simp [hps, hq2, hv, hs, hbrc, hcm]] at h
                        exact Option.noConfusion h
              · rw [show pMembers (Nat.succ f) ('"' :: cs2) = none from by
                  rw [pMembers.eq_def]; simp [hps, hq2, hcolon]] at h
                exact Option.noConfusion h
        · rw [show pMembers (Nat.succ f) (c0 :: cs2) = none from by
            rw [pMembers.eq_def]; simp [hq]] at h
          exact Option.noConfusion h

/-! ## Assembling C1: joins, whitespace edges, and the parse of the full
joined buffer -/

theorem jsonWs_pySpace {c : Char} (h : isJsonWs c = true) : isPySpace c = true := by
  simp only [isJsonWs, Bool.or_eq_true, decide_eq_true_eq] at h
  rcases h with ((h | h) | h) | h <;> (subst h; decide)

theorem data_ne_of_ne {s : String} (h : s ≠ "") : s.data ≠ [] :=
  fun hc => h (String.ext hc)

theorem getLast_some_mem {l : List Char} {x : Char} (h : l.getLast? = some x) : x ∈ l := by
  obtain ⟨hh, rfl⟩ := List.mem_getLast?_eq_getLast (l := l) (x := x) (by rw [h]; rfl)
  exact List.getLast_mem hh

theorem head?_append_left {a : List Char} (b : List Char) (h : a ≠ []) :
    (a ++ b).head? = a.head? := by
  cases a with
  | nil => exact absurd rfl h
  | cons x t => rfl

theorem joinNl_cons {l : String} {ls : List String} (h : ls ≠ []) :
    joinNl (l :: ls) = l ++ "\n" ++ joinNl ls := by
  cases ls with
  | nil => exact absurd rfl h
  | cons x xs => rfl

theorem joinNl_ne {ls : List String} (hne : ls ≠ []) (hall : ∀ l ∈ ls, l ≠ "") :
    joinNl ls ≠ "" := by
  cases ls with
  | nil => exact absurd rfl hne
  | cons l xs =>
    cases xs with
    | nil => exact hall l (List.mem_cons_self _ _)
    | cons y ys =>
      rw [joinNl_cons (by simp)]
      intro hc
      have h2 := congrArg String.length hc
      rw [String.length_append, String.length_append] at h2
      have h3 : ("\n" : String).length = 1 := rfl
      have h4 : ("" : String).length = 0 := rfl
      omega

theorem joinNl_getLast : ∀ (ls : List String), ls ≠ [] → (∀ l ∈ ls, l ≠ "") →
    ∃ l, l ∈ ls ∧ (joinNl ls).data.getLast? = l.data.getLast? := by
  intro ls
  induction ls with
  | nil => intro h _; exact absurd rfl h
  | cons x xs ih =>
    intro _ hall
    cases xs with
    | nil => exact ⟨x, List.mem_cons_self _ _, rfl⟩
    | cons y ys =>
      obtain ⟨l, hl, heq⟩ := ih (by simp)
        (fun a ha => hall a (List.mem_cons_of_mem x ha))
      refine ⟨l, List.mem_cons_of_mem x hl, ?_⟩
      rw [joinNl_cons (by simp), String.data_append,
        List.getLast?_append_of_ne_nil _ (data_ne_of_ne (joinNl_ne (by simp)
          (fun a ha => hall a (List.mem_cons_of_mem x ha))))]
      exact heq

theorem joinNl_head {l : String} (ls : List String) (h : l ≠ "") :
    (joinNl (l :: ls)).data.head? = l.data.head? := by
  cases ls with
  | nil => rfl
  | cons y ys =>
    rw [joinNl_cons (by simp), String.data_append,
      head?_append_left _ (by
        rw [String.data_append]
        simp), String.data_append,
      head?_append_left _ (data_ne_of_ne h)]

theorem joinNl_len_ge (l : String) (rest : List String) :
    l.length ≤ (joinNl (l :: rest)).length := by
  cases rest with
  | nil => exact le_refl _
  | cons y ys =>
    rw [joinNl_cons (by simp), String.length_append, String.length_append]
    omega

theorem data_join (p l : String) : (p ++ "\n" ++ l).data = p.data ++ '\n' :: l.data := by
  rw [String.data_append, String.data_append]
  simp

theorem str_shift (p l j : String) :
    p ++ "\n" ++ (l ++ "\n" ++ j) = (p ++ "\n" ++ l) ++ "\n" ++ j := by
  apply String.ext
  simp [String.data_append, List.append_assoc]

theorem joinBuf_of_ne {b : String} (h : b ≠ "") (l : String) :
    joinBuf b l = b ++ "\n" ++ l := by
  unfold joinBuf
  rw [if_neg h]

theorem joinBuf_empty (l : String) : joinBuf "" l = l := by
  unfold joinBuf
  rw [if_pos rfl]

/-- If a whole string parses as one value and is stripped on both ends,
then the value's text is exactly the whole string. -/
theorem loads_split {s : String} {v : Json}
    (hhead : ∀ a, s.data.head? = some a → isPySpace a = false)
    (hlast : ∀ a, s.data.getLast? = some a → isPySpace a = false)
    (hj : jsonLoads s = some v) :
    pValue (2 * s.length + 2) s.data = some (v, []) := by
  unfold jsonLoads at hj
  have hskip : skipWsL s.data = s.data := by
    cases hd : s.data with
    | nil => rfl
    | cons a t =>
      show List.dropWhile isJsonWs (a :: t) = a :: t
      rw [List.dropWhile_cons, if_neg ?_]
      intro hcon
      have := hhead a (by rw [hd]; rfl)
      rw [jsonWs_pySpace hcon] at this
      exact Bool.noConfusion this
  rw [hskip] at hj
  cases hp : pValue (2 * s.length + 2) s.data with
  | none => rw [hp] at hj; exact Option.noConfusion hj
  | some pr =>
    obtain ⟨v0, rest⟩ := pr
    rw [hp] at hj
    have hj2 : (if skipWsL rest = [] then some v0 else none) = some v := hj
    by_cases hrw : skipWsL rest = []
    · rw [if_pos hrw] at hj2
      injection hj2 with hv0
      subst hv0
      have hrest : rest = [] := by
        by_contra hc
        have hws : ∀ x ∈ rest, isJsonWs x = true := List.dropWhile_eq_nil_iff.mp hrw
        obtain ⟨c, hceq, _⟩ := (parse_ok _).1 _ _ _ hp
        obtain ⟨x, hx⟩ : ∃ x, rest.getLast? = some x := by
          cases hxx : rest.getLast? with
          | none => exact absurd (List.getLast?_eq_none_iff.mp hxx) hc
          | some x => exact ⟨x, rfl⟩
        have hxlast : s.data.getLast? = some x := by
          rw [hceq, List.getLast?_append_of_ne_nil _ hc]
          exact hx
        have h1 := hlast x hxlast
        rw [jsonWs_pySpace (hws x (getLast_some_mem hx))] at h1
        exact Bool.noConfusion h1
      rw [hrest]
    · rw [if_neg hrw] at hj2
      exact Option.noConfusion hj2

/-- No proper non-empty prefix of a container value's text satisfies the
completion test. -/
theorem val_mid {s : List Char} (hv : ValOk s)
    (hcon : ∀ op t, s = op :: t → (op = '\x7b' ∨ op = '[')) :
    ∀ q c r, s = q ++ c :: r → q ≠ [] → ¬ scanDone (scan00 q) := by
  intro q c r hsplit hq
  cases q with
  | nil => exact absurd rfl hq
  | cons op q2 =>
    have hshape : s = op :: (q2 ++ c :: r) := by rw [hsplit]; rfl
    have hopc := hcon op _ hshape
    have hdepth := traceOk_at q2 (scanChar cleanSt op) c r (hv.pos op _ hshape hopc)
    intro hdone
    have heq : scan00 (op :: q2) = scanChars (scanChar cleanSt op) q2 := rfl
    obtain ⟨hd1, hd2, _⟩ := hdone
    rw [heq] at hd1 hd2
    have := hdepth
    unfold depthP at this
    omega

/-- The escape flag is never pending at a position of a value's text that
is followed by a newline. -/
theorem val_esc {s : List Char} (hv : ValOk s) :
    ∀ q r, s = q ++ '\n' :: r → (scan00 q).escape_next = false := by
  intro q r hsplit
  have h := traceOk_at q cleanSt '\n' r (hsplit ▸ hv.piece.trace)
  cases he : (scan00 q).escape_next with
  | false => rfl
  | true =>
    have := h.2 he
    exact absurd this (by decide)

/-- The inductive walk of the accumulator along the remaining fragments of
one JSON value: from a state holding the joined prefix `p` (with matching
scanner state), every non-final fragment is appended without emission, and
the final fragment completes the buffer and emits the parsed value,
resetting the state.  The take-indexed part records that no prefix of the
walk emits anything. -/
theorem chainLemma : ∀ (pending : List String) (p : String) (s : String) (v : Json),
    (∀ l ∈ pending, pyStrip l = l ∧ l ≠ "") →
    p ≠ "" →
    pending ≠ [] →
    s = p ++ "\n" ++ joinNl pending →
    s.length ≤ MAX_BUFFER_SIZE →
    jsonLoads s = some v →
    (∀ q c r, s.data = q ++ c :: r → q ≠ [] → ¬ scanDone (scan00 q)) →
    (∀ q r, s.data = q ++ '\n' :: r → (scan00 q).escape_next = false) →
    scan00 s.data = cleanSt →
    runLines ⟨p, scan00 p.data⟩ pending = ([v], Except.ok initFeed) ∧
    (∀ k, k < pending.length → ∃ st, runLines ⟨p, scan00 p.data⟩ (pending.take k) =
      ([], Except.ok st)) := by
  intro pending
  induction pending with
  | nil =>
    intro p s v _ _ hne
    exact absurd rfl hne
  | cons l rest ihp =>
    intro p s v hall hp hne hs hlen hj hmid hesc hneutral
    have hl := hall l (List.mem_cons_self l rest)
    have hbuf : joinBuf p l = p ++ "\n" ++ l := joinBuf_of_ne hp l
    have hbufne : joinBuf p l ≠ "" := joinBuf_ne hl.2
    have hslen : s.length = p.length + 1 + (joinNl (l :: rest)).length := by
      rw [hs, String.length_append, String.length_append]
      have h3 : ("\n" : String).length = 1 := rfl
      omega
    have hszl : p.length + l.length + 1 ≤ s.length := by
      have := joinNl_len_ge l rest
      omega
    have hsz : ¬ MAX_BUFFER_SIZE <
        (⟨p, scan00 p.data⟩ : FeedState).json_buffer.length + (pyStrip l).length := by
      show ¬ MAX_BUFFER_SIZE < p.length + (pyStrip l).length
      rw [hl.1]
      omega
    have hsdata : s.data = p.data ++ '\n' :: (joinNl (l :: rest)).data := by
      rw [hs, data_join]
    have hescp : (scan00 p.data).escape_next = false := hesc _ _ hsdata
    have hscan : scanChars (scan00 p.data) l.data = scan00 (joinBuf p l).data := by
      rw [hbuf]
      show scanChars (scan00 p.data) l.data = scanChars cleanSt (p ++ "\n" ++ l).data
      rw [data_join, scanChars_append]
      show scanChars (scan00 p.data) l.data =
        scanChars (scan00 p.data) ('\n' :: l.data)
      rw [scanChars_cons, scanChar_newline hescp]
    cases rest with
    | nil =>
      have hbufs : joinBuf p l = s := by rw [hbuf, hs]; rfl
      have hdone : scanDone (scanChars (scan00 p.data) (pyStrip l).data) := by
        rw [hl.1, hscan, hbufs, hneutral]
        exact ⟨rfl, rfl, rfl⟩
      have hfeed : feedLine ⟨p, scan00 p.data⟩ l = Except.ok (initFeed, some v) := by
        apply feedLine_yield
        · rw [hl.1]; exact hl.2
        · exact hsz
        · constructor
          · show joinBuf p (pyStrip l) ≠ ""
            rw [hl.1]; exact hbufne
          · exact hdone
        · show jsonLoads (joinBuf p (pyStrip l)) = some v
          rw [hl.1, hbufs]; exact hj
      constructor
      · rw [runLines_cons_some hfeed, runLines_nil]
      · intro k hk
        have hk0 : k = 0 := by simpa using Nat.lt_one_iff.mp (by simpa using hk)
        subst hk0
        exact ⟨⟨p, scan00 p.data⟩, rfl⟩
    | cons y ys =>
      have hs2 : s = joinBuf p l ++ "\n" ++ joinNl (y :: ys) := by
        rw [hbuf, hs, joinNl_cons (by simp), str_shift]
      have hmid1 : ¬ scanDone (scan00 (joinBuf p l).data) := by
        apply hmid (joinBuf p l).data '\n' ((joinNl (y :: ys)).data)
        · rw [hs2, data_join]
        · exact data_ne_of_ne hbufne
      have hfeed : feedLine ⟨p, scan00 p.data⟩ l =
          Except.ok (⟨joinBuf p l, scan00 (joinBuf p l).data⟩, none) := by
        rw [feedLine_continue ?_ hsz ?_]
        · show Except.ok ((⟨joinBuf p (pyStrip l),
              scanChars (scan00 p.data) (pyStrip l).data⟩ : FeedState),
            (none : Option Json)) = _
          rw [hl.1, hscan]
        · rw [hl.1]; exact hl.2
        · show ¬ (joinBuf p (pyStrip l) ≠ "" ∧
            scanDone (scanChars (scan00 p.data) (pyStrip l).data))
          rw [hl.1, hscan]
          intro hcon
          exact hmid1 hcon.2
      obtain ⟨ch1, ch2⟩ := ihp (joinBuf p l) s v
        (fun x hx => hall x (List.mem_cons_of_mem _ hx)) hbufne (by simp) hs2 hlen hj
        hmid hesc hneutral
      constructor
      · rw [runLines_cons_none hfeed]
        exact ch1
      · intro k hk
        cases k with
        | zero => exact ⟨⟨p, scan00 p.data⟩, rfl⟩
        | succ j =>
          rw [List.take_succ_cons, runLines_cons_none hfeed]
          exact ch2 j (by simpa using hk)

/-- C1: feeding any sequence of non-empty, already-stripped lines whose
newline-join parses as one JSON value (and fits under the buffer ceiling,
cf. the frame-too-large condition) yields exactly that value, exactly once,
on the last line — every proper prefix of the feed yields nothing — and
resets the accumulator. -/
theorem claim_C1 (ls : List String) (v : Json)
    (hne : ls ≠ [])
    (hstrip : ∀ l ∈ ls, pyStrip l = l ∧ l ≠ "")
    (hj : jsonLoads (joinNl ls) = some v)
    (hsz : (joinNl ls).length ≤ MAX_BUFFER_SIZE) :
    runLines initFeed ls = ([v], Except.ok initFeed) ∧
    (∀ k, k < ls.length → ∃ st, runLines initFeed (ls.take k) = ([], Except.ok st)) := by
  obtain ⟨l0, rest, rfl⟩ : ∃ l0 rest, ls = l0 :: rest := by
    cases ls with
    | nil => exact absurd rfl hne
    | cons a b => exact ⟨a, b, rfl⟩
  have hl0 := hstrip l0 (List.mem_cons_self _ _)
  have hhead : ∀ a, (joinNl (l0 :: rest)).data.head? = some a → isPySpace a = false := by
    intro a ha
    rw [joinNl_head rest hl0.2] at ha
    exact pyStrip_head_not hl0.1 ha
  have hlast : ∀ a, (joinNl (l0 :: rest)).data.getLast? = some a →
      isPySpace a = false := by
    intro a ha
    obtain ⟨l, hl, heq⟩ := joinNl_getLast (l0 :: rest) (by simp)
      (fun x hx => (hstrip x hx).2)
    rw [heq] at ha
    exact pyStrip_getLast_not (hstrip l hl).1 ha
  have hsplit := loads_split hhead hlast hj
  obtain ⟨c, hceq, hcok⟩ := (parse_ok _).1 _ _ _ hsplit
  rw [List.append_nil] at hceq
  have hvok : ValOk (joinNl (l0 :: rest)).data := by rw [hceq]; exact hcok
  have hneutral : scan00 (joinNl (l0 :: rest)).data = cleanSt := hvok.piece.neutral
  cases rest with
  | nil =>
    have hfeed : feedLine initFeed l0 = Except.ok (initFeed, some v) := by
      apply feedLine_yield
      · rw [hl0.1]; exact hl0.2
      · show ¬ MAX_BUFFER_SIZE < ("" : String).length + (pyStrip l0).length
        rw [hl0.1]
        have h4 : ("" : String).length = 0 := rfl
        have h5 : (joinNl [l0]).length = l0.length := rfl
        omega
      · constructor
        · show joinBuf "" (pyStrip l0) ≠ ""
          rw [hl0.1, joinBuf_empty]; exact hl0.2
        · show scanDone (scanChars cleanSt (pyStrip l0).data)
          rw [hl0.1]
          have : scan00 l0.data = cleanSt := hneutral
          rw [show scanChars cleanSt l0.data = scan00 l0.data from rfl, this]
          exact ⟨rfl, rfl, rfl⟩
      · show jsonLoads (joinBuf "" (pyStrip l0)) = some v
        rw [hl0.1, joinBuf_empty]
        exact hj
    constructor
    · rw [runLines_cons_some hfeed, runLines_nil]
    · intro k hk
      have hk0 : k = 0 := by simpa using Nat.lt_one_iff.mp (by simpa using hk)
      subst hk0
      exact ⟨initFeed, rfl⟩
  | cons y ys =>
    have hs2 : joinNl (l0 :: y :: ys) = l0 ++ "\n" ++ joinNl (y :: ys) :=
      joinNl_cons (by simp)
    have hnl_mem : '\n' ∈ (joinNl (l0 :: y :: ys)).data := by
      rw [hs2, data_join]
      exact List.mem_append_right _ (List.mem_cons_self _ _)
    have hcon : ∀ op t, (joinNl (l0 :: y :: ys)).data = op :: t →
        (op = '\x7b' ∨ op = '[') := by
      intro op t hshape
      by_contra hc
      exact (hvok.scalarNoNl op t hshape hc) hnl_mem
    have hmid := val_mid hvok hcon
    have hesc := val_esc hvok
    have hszl : l0.length + 1 ≤ (joinNl (l0 :: y :: ys)).length := by
      rw [hs2, String.length_append, String.length_append]
      have h3 : ("\n" : String).length = 1 := rfl
      omega
    have hsz0 : ¬ MAX_BUFFER_SIZE <
        (initFeed.json_buffer).length + (pyStrip l0).length := by
      show ¬ MAX_BUFFER_SIZE < ("" : String).length + (pyStrip l0).length
      rw [hl0.1]
      have h4 : ("" : String).length = 0 := rfl
      omega
    have hmid0 : ¬ scanDone (scan00 l0.data) := by
      apply hmid l0.data '\n' ((joinNl (y :: ys)).data)
      · rw [hs2, data_join]
      · exact data_ne_of_ne hl0.2
    have hfeed0 : feedLine initFeed l0 = Except.ok (⟨l0, scan00 l0.data⟩, none) := by
      rw [feedLine_continue ?_ hsz0 ?_]
      · show Except.ok ((⟨joinBuf "" (pyStrip l0),
            scanChars cleanSt (pyStrip l0).data⟩ : FeedState),
          (none : Option Json)) = _
        rw [hl0.1, joinBuf_empty]
        rfl
      · rw [hl0.1]; exact hl0.2
      · show ¬ (joinBuf "" (pyStrip l0) ≠ "" ∧
          scanDone (scanChars cleanSt (pyStrip l0).data))
        rw [hl0.1, joinBuf_empty]
        intro hcon2
        exact hmid0 hcon2.2
    obtain ⟨ch1, ch2⟩ := chainLemma (y :: ys) l0 (joinNl (l0 :: y :: ys)) v
      (fun x hx => hstrip x (List.mem_cons_of_mem _ hx)) hl0.2 (by simp) hs2 hsz hj
      hmid hesc hneutral
    constructor
    · rw [runLines_cons_none hfeed0]
      exact ch1
    · intro k hk
      cases k with
      | zero => exact ⟨initFeed, rfl⟩
      | succ j =>
        rw [List.take_succ_cons, runLines_cons_none hfeed0]
        exact ch2 j (by simpa using hk)

/-- The spec's end-to-end scenario as a witness for C1. -/
def c1Lines : List String := ["\x7b\"a\":1,", "\"b\":[1,2,", "3]\x7d"]

/-- The decoded value of the C1 scenario. -/
def c1Val : Json :=
  Json.obj [("a", Json.num "1"),
            ("b", Json.arr [Json.num "1", Json.num "2", Json.num "3"])]

theorem claim_C1_witness :
    runLines initFeed c1Lines = ([c1Val], Except.ok initFeed) ∧
    (∀ k, k < c1Lines.length →
      ∃ st, runLines initFeed (c1Lines.take k) = ([], Except.ok st)) :=
  claim_C1 c1Lines c1Val (by decide) (by decide) (by rfl) (by decide)

end Sdk
